import Mathlib

/-!
Verification of the erigon-lib transaction pool engine (`txpool/pool.go`)
against its natural-language specification.

The Go code is shallowly embedded: machine integers (`uint64`, `uint8`,
`uint256`) become `Nat` with explicit `% 2^w` at the operations where
overflow can occur; in-place mutation becomes explicit state passing;
heaps and the B-tree index become lists together with argmin/argmax
selection under the source's comparators.
-/

namespace TxPoolSpec

/-- 2^64, the modulus of Go `uint64` arithmetic. -/
def U64 : Nat := 2 ^ 64

/-- 2^256, the modulus of `uint256.Int` arithmetic. -/
def U256 : Nat := 2 ^ 256

/-- Discard reasons, from the `DiscardReason` constants in pool.go. -/
inductive DiscardReason where
  | NotSet
  | Success
  | AlreadyKnown
  | Mined
  | ReplacedByHigherTip
  | UnderPriced
  | ReplaceUnderpriced
  | FeeTooLow
  | OversizedData
  | InvalidSender
  | NegativeValue
  | Spammer
  | PendingPoolOverflow
  | BaseFeePoolOverflow
  | QueuedPoolOverflow
  | GasUintOverflow
  | IntrinsicGas
  | RLPTooLong
  | NonceTooLow
  | InsufficientFunds
  | NotReplaced
  | DuplicateHash
  deriving DecidableEq, Repr

/-- `SubPoolType` from pool.go: `PendingSubPool = 1`, `BaseFeeSubPool = 2`,
`QueuedSubPool = 3`; the zero value (`currentSubPool = 0`, set "for safety"
on heap pops) is `unset`. -/
inductive SubPoolType where
  | unset
  | pending
  | baseFee
  | queued
  deriving DecidableEq, Repr

/-- Transaction record. Modelled from the spec: the `TxSlot` type itself
lives in `txpool/types.go`, which is not among the provided sources; §3 of
the spec lists its fields (`id_hash`, `sender_id`, `nonce`, `fee_cap`,
`tip`, `gas`, `value`, `data_len`, `data_nonzero_len`, `creation`).
The hash is abstracted to a `Nat` identity. All `uint64` fields are `Nat`
values `< 2^64`; `value` is `uint256`, a `Nat < 2^256`. -/
structure TxSlot where
  senderID : Nat
  nonce : Nat
  tip : Nat
  feeCap : Nat
  gas : Nat
  value : Nat
  idHash : Nat
  dataLen : Nat
  dataNonZeroLen : Nat
  creation : Bool
  deriving DecidableEq, Repr

/-- Sub-pool marker bit `EnoughFeeCapProtocol = 0b100000`. -/
def EnoughFeeCapProtocol : Nat := 32
/-- Sub-pool marker bit `NoNonceGaps = 0b010000`. -/
def NoNonceGaps : Nat := 16
/-- Sub-pool marker bit `EnoughBalance = 0b001000`. -/
def EnoughBalance : Nat := 8
/-- Sub-pool marker bit `NotTooMuchGas = 0b000100`. -/
def NotTooMuchGas : Nat := 4
/-- Sub-pool marker bit `EnoughFeeCapBlock = 0b000010`. -/
def EnoughFeeCapBlock : Nat := 2
/-- Sub-pool marker bit `IsLocal = 0b000001`. -/
def IsLocal : Nat := 1

/-- `BaseFeePoolBits = EnoughFeeCapProtocol + NoNonceGaps + EnoughBalance + NotTooMuchGas`. -/
def BaseFeePoolBits : Nat := EnoughFeeCapProtocol + NoNonceGaps + EnoughBalance + NotTooMuchGas
/-- `QueuedPoolBits = EnoughFeeCapProtocol`. -/
def QueuedPoolBits : Nat := EnoughFeeCapProtocol

/-- Go `x &^ m` on `uint8`: AND-NOT within 8 bits. -/
def andNot (x m : Nat) : Nat := x &&& (255 ^^^ m)

/-- `metaTx` from pool.go: the mutable envelope around a `TxSlot`.
Heap back-indices (`bestIndex`, `worstIndex`) are omitted: pools are
modelled as lists and selection is by the comparators. -/
structure MetaTx where
  tx : TxSlot
  subPool : Nat
  nonceDistance : Nat
  cumulativeBalanceDistance : Nat
  minFeeCap : Nat
  minTip : Nat
  currentSubPool : SubPoolType
  timestamp : Nat
  deriving DecidableEq, Repr

/-- `newMetaTx` from pool.go: fresh envelope; marker is `IsLocal` for local
transactions, zero otherwise. -/
def newMetaTx (slot : TxSlot) (isLocal : Bool) (timestamp : Nat) : MetaTx :=
  { tx := slot
    subPool := if isLocal then IsLocal else 0
    nonceDistance := 0
    cumulativeBalanceDistance := 0
    minFeeCap := 0
    minTip := 0
    currentSubPool := .unset
    timestamp := timestamp }

/-- `calcProtocolBaseFee` from pool.go: the constant 7, ignoring its argument. -/
def calcProtocolBaseFee (_baseFee : Nat) : Nat := 7

/-- The effective marker both comparators compute: the stored `subPool`
with `EnoughFeeCapBlock` OR-ed in when `minFeeCap >= pendingBaseFee`
(`subPool |= EnoughFeeCapBlock` in both `better` and `worse`). -/
def effMarker (m : MetaTx) (pendingBaseFee : Nat) : Nat :=
  if pendingBaseFee ≤ m.minFeeCap then m.subPool ||| EnoughFeeCapBlock else m.subPool

/-- The `effectiveTip` computed in the Pending branch of `metaTx.better`:
`min(minFeeCap - pendingBaseFee, minTip)` when `pendingBaseFee <= minFeeCap`,
zero otherwise. -/
def pendingEffectiveTip (m : MetaTx) (pendingBaseFee : Nat) : Nat :=
  if pendingBaseFee ≤ m.minFeeCap then min (m.minFeeCap - pendingBaseFee) m.minTip else 0

/-- `metaTx.better` from pool.go. The `EnoughFeeCapBlock` bit is OR-ed into
both effective markers when `minFeeCap >= pendingBaseFee`; markers compare
first, then a dispatch on the receiver's `currentSubPool`, then the
timestamp (smaller wins). -/
def better (mt than : MetaTx) (pendingBaseFee : Nat) : Bool :=
  if effMarker mt pendingBaseFee ≠ effMarker than pendingBaseFee then
    decide (effMarker mt pendingBaseFee > effMarker than pendingBaseFee)
  else
    match mt.currentSubPool with
    | .pending =>
      if pendingEffectiveTip mt pendingBaseFee ≠ pendingEffectiveTip than pendingBaseFee then
        decide (pendingEffectiveTip mt pendingBaseFee > pendingEffectiveTip than pendingBaseFee)
      else decide (mt.timestamp < than.timestamp)
    | .baseFee =>
      if mt.minFeeCap ≠ than.minFeeCap then decide (mt.minFeeCap > than.minFeeCap)
      else decide (mt.timestamp < than.timestamp)
    | .queued =>
      if mt.nonceDistance ≠ than.nonceDistance then decide (mt.nonceDistance < than.nonceDistance)
      else if mt.cumulativeBalanceDistance ≠ than.cumulativeBalanceDistance then
        decide (mt.cumulativeBalanceDistance < than.cumulativeBalanceDistance)
      else decide (mt.timestamp < than.timestamp)
    | .unset => decide (mt.timestamp < than.timestamp)

/-- `metaTx.worse` from pool.go. Same effective-marker computation; smaller
marker wins; Pending compares `minFeeCap` ascending then nonce and balance
distances descending; BaseFee and Queued compare the distances descending;
ties resolve to larger timestamp. -/
def worse (mt than : MetaTx) (pendingBaseFee : Nat) : Bool :=
  if effMarker mt pendingBaseFee ≠ effMarker than pendingBaseFee then
    decide (effMarker mt pendingBaseFee < effMarker than pendingBaseFee)
  else
    match mt.currentSubPool with
    | .pending =>
      if mt.minFeeCap ≠ than.minFeeCap then decide (mt.minFeeCap < than.minFeeCap)
      else if mt.nonceDistance ≠ than.nonceDistance then decide (mt.nonceDistance > than.nonceDistance)
      else if mt.cumulativeBalanceDistance ≠ than.cumulativeBalanceDistance then
        decide (mt.cumulativeBalanceDistance > than.cumulativeBalanceDistance)
      else decide (mt.timestamp > than.timestamp)
    | .baseFee =>
      if mt.nonceDistance ≠ than.nonceDistance then decide (mt.nonceDistance > than.nonceDistance)
      else if mt.cumulativeBalanceDistance ≠ than.cumulativeBalanceDistance then
        decide (mt.cumulativeBalanceDistance > than.cumulativeBalanceDistance)
      else decide (mt.timestamp > than.timestamp)
    | .queued =>
      if mt.nonceDistance ≠ than.nonceDistance then decide (mt.nonceDistance > than.nonceDistance)
      else if mt.cumulativeBalanceDistance ≠ than.cumulativeBalanceDistance then
        decide (mt.cumulativeBalanceDistance > than.cumulativeBalanceDistance)
      else decide (mt.timestamp > than.timestamp)
    | .unset => decide (mt.timestamp > than.timestamp)

end TxPoolSpec

namespace TxPoolSpec

theorem natLt_asymmB {s t : Nat} : ¬(decide (s < t) = true ∧ decide (t < s) = true) := by
  simp only [decide_eq_true_eq, not_and]
  omega

theorem gtStep_asymm {x y : Nat} {p q : Bool} (H : ¬(p = true ∧ q = true)) :
    ¬((if x ≠ y then decide (x > y) else p) = true ∧
      (if y ≠ x then decide (y > x) else q) = true) := by
  rintro ⟨h1, h2⟩
  by_cases hxy : x = y
  · rw [if_neg (by simpa using hxy)] at h1
    rw [if_neg (by simpa using hxy.symm)] at h2
    exact H ⟨h1, h2⟩
  · rw [if_pos hxy, decide_eq_true_eq] at h1
    rw [if_pos (Ne.symm hxy), decide_eq_true_eq] at h2
    omega

theorem ltStep_asymm {x y : Nat} {p q : Bool} (H : ¬(p = true ∧ q = true)) :
    ¬((if x ≠ y then decide (x < y) else p) = true ∧
      (if y ≠ x then decide (y < x) else q) = true) := by
  rintro ⟨h1, h2⟩
  by_cases hxy : x = y
  · rw [if_neg (by simpa using hxy)] at h1
    rw [if_neg (by simpa using hxy.symm)] at h2
    exact H ⟨h1, h2⟩
  · rw [if_pos hxy, decide_eq_true_eq] at h1
    rw [if_pos (Ne.symm hxy), decide_eq_true_eq] at h2
    omega

theorem better_irrefl (a : MetaTx) (f : Nat) : better a a f = false := by
  unfold better
  cases ha : a.currentSubPool <;> simp

theorem worse_irrefl (a : MetaTx) (f : Nat) : worse a a f = false := by
  unfold worse
  cases ha : a.currentSubPool <;> simp

theorem better_asymm (a b : MetaTx) (f : Nat) (h : a.currentSubPool = b.currentSubPool) :
    ¬(better a b f = true ∧ better b a f = true) := by
  unfold better
  rw [h]
  cases hb : b.currentSubPool <;> apply gtStep_asymm
  · exact natLt_asymmB
  · apply gtStep_asymm
    exact natLt_asymmB
  · apply gtStep_asymm
    exact natLt_asymmB
  · apply ltStep_asymm
    apply ltStep_asymm
    exact natLt_asymmB

theorem worse_asymm (a b : MetaTx) (f : Nat) (h : a.currentSubPool = b.currentSubPool) :
    ¬(worse a b f = true ∧ worse b a f = true) := by
  unfold worse
  rw [h]
  cases hb : b.currentSubPool <;> apply ltStep_asymm
  · simp only [decide_eq_true_eq, not_and]; omega
  · apply ltStep_asymm
    apply gtStep_asymm
    apply gtStep_asymm
    simp only [decide_eq_true_eq, not_and]; omega
  · apply gtStep_asymm
    apply gtStep_asymm
    simp only [decide_eq_true_eq, not_and]; omega
  · apply gtStep_asymm
    apply gtStep_asymm
    simp only [decide_eq_true_eq, not_and]; omega

/-- A sample transaction used to instantiate universally quantified theorems. -/
def txSampleA : TxSlot :=
  { senderID := 1, nonce := 0, tip := 5, feeCap := 20, gas := 21000, value := 0
    idHash := 100, dataLen := 0, dataNonZeroLen := 0, creation := false }

/-- A second sample transaction (distinct sender and hash). -/
def txSampleB : TxSlot :=
  { senderID := 2, nonce := 3, tip := 7, feeCap := 15, gas := 21000, value := 0
    idHash := 200, dataLen := 0, dataNonZeroLen := 0, creation := false }

/-- A sample pending-pool `metaTx`. -/
def mtSampleA : MetaTx :=
  { tx := txSampleA, subPool := 60, nonceDistance := 0, cumulativeBalanceDistance := 0
    minFeeCap := 20, minTip := 5, currentSubPool := .pending, timestamp := 1 }

/-- Another sample pending-pool `metaTx`. -/
def mtSampleB : MetaTx :=
  { tx := txSampleB, subPool := 60, nonceDistance := 1, cumulativeBalanceDistance := 0
    minFeeCap := 15, minTip := 7, currentSubPool := .pending, timestamp := 2 }

/-- C10: for every pending base fee, `better` and `worse` are irreflexive and,
on any two `metaTx` values sharing the same `currentSubPool`, asymmetric —
the strict-order properties the heaps and the sorted best slice require. -/
theorem claim_c10_comparators_strict (a b : MetaTx) (f : Nat)
    (h : a.currentSubPool = b.currentSubPool) :
    better a a f = false ∧ worse a a f = false ∧
    ¬(better a b f = true ∧ better b a f = true) ∧
    ¬(worse a b f = true ∧ worse b a f = true) :=
  ⟨better_irrefl a f, worse_irrefl a f, better_asymm a b f h, worse_asymm a b f h⟩

/-- Witness for C10 at concrete pending-pool transactions and base fee 10. -/
theorem claim_c10_comparators_strict_witness :
    mtSampleA.currentSubPool = mtSampleB.currentSubPool ∧
    (better mtSampleA mtSampleA 10 = false ∧ worse mtSampleA mtSampleA 10 = false ∧
     ¬(better mtSampleA mtSampleB 10 = true ∧ better mtSampleB mtSampleA 10 = true) ∧
     ¬(worse mtSampleA mtSampleB 10 = true ∧ worse mtSampleB mtSampleA 10 = true)) :=
  ⟨by decide, claim_c10_comparators_strict mtSampleA mtSampleB 10 (by decide)⟩

end TxPoolSpec

namespace TxPoolSpec

/-- Add into a sub-pool (`PendingPool.Add` / `SubPool.Add` in pool.go):
sets `currentSubPool` to the pool's type and inserts. -/
def poolAdd (t : SubPoolType) (m : MetaTx) (l : List MetaTx) : List MetaTx :=
  { m with currentSubPool := t } :: l

/-- The element a heap pop hands out: `Pop` sets `currentSubPool = 0`
"for safety". -/
def popped (m : MetaTx) : MetaTx := { m with currentSubPool := .unset }

/-- Two-element selection under `worse`: keeps the accumulator unless the
new element is worse. -/
def selWorse (f : Nat) (a b : MetaTx) : MetaTx := if worse b a f then b else a

/-- `Worst()` of a pool: an element no other element of the pool is worse
than, i.e. the root of the worst-heap. -/
def worstOf (f : Nat) : List MetaTx → Option MetaTx
  | [] => none
  | m :: rest => some (rest.foldl (selWorse f) m)

/-- Two-element selection under `better`. -/
def selBetter (f : Nat) (a b : MetaTx) : MetaTx := if better b a f then b else a

/-- `Best()` of a pool: the root of the best-heap. -/
def bestOf (f : Nat) : List MetaTx → Option MetaTx
  | [] => none
  | m :: rest => some (rest.foldl (selBetter f) m)

/-- The three sub-pools and the discard log threaded through `promote`. -/
structure PromoteState where
  pending : List MetaTx
  baseFee : List MetaTx
  queued : List MetaTx
  discarded : List (MetaTx × DiscardReason)
  deriving Repr

theorem foldl_selWorse_mem (f : Nat) (l : List MetaTx) (a : MetaTx) :
    l.foldl (selWorse f) a = a ∨ l.foldl (selWorse f) a ∈ l := by
  induction l generalizing a with
  | nil => left; rfl
  | cons b t ih =>
    simp only [List.foldl_cons]
    rcases ih (selWorse f a b) with h | h
    · rw [h]
      unfold selWorse
      split
      · right; simp
      · left; rfl
    · right; exact List.mem_cons_of_mem _ h

theorem worstOf_mem {f : Nat} {l : List MetaTx} {w : MetaTx} (h : worstOf f l = some w) :
    w ∈ l := by
  cases l with
  | nil => simp [worstOf] at h
  | cons m rest =>
    simp only [worstOf, Option.some.injEq] at h
    rcases foldl_selWorse_mem f rest m with h' | h' <;> rw [← h]
    · rw [h']; exact List.mem_cons_self _ _
    · exact List.mem_cons_of_mem _ h'

theorem foldl_selBetter_mem (f : Nat) (l : List MetaTx) (a : MetaTx) :
    l.foldl (selBetter f) a = a ∨ l.foldl (selBetter f) a ∈ l := by
  induction l generalizing a with
  | nil => left; rfl
  | cons b t ih =>
    simp only [List.foldl_cons]
    rcases ih (selBetter f a b) with h | h
    · rw [h]
      unfold selBetter
      split
      · right; simp
      · left; rfl
    · right; exact List.mem_cons_of_mem _ h

theorem bestOf_mem {f : Nat} {l : List MetaTx} {w : MetaTx} (h : bestOf f l = some w) :
    w ∈ l := by
  cases l with
  | nil => simp [bestOf] at h
  | cons m rest =>
    simp only [bestOf, Option.some.injEq] at h
    rcases foldl_selBetter_mem f rest m with h' | h' <;> rw [← h]
    · rw [h']; exact List.mem_cons_self _ _
    · exact List.mem_cons_of_mem _ h'

theorem erase_length_lt {l : List MetaTx} {w : MetaTx} (h : w ∈ l) :
    (l.erase w).length < l.length := by
  rw [List.length_erase_of_mem h]
  have : 0 < l.length := List.length_pos.mpr (List.ne_nil_of_mem h)
  omega

/-- Phase 1 of `promote`: demote the worst of Pending while it no longer
qualifies (`worst.subPool < BaseFeePoolBits || worst.minFeeCap <
pendingBaseFee`); destination BaseFee, Queued, or discard `FeeTooLow`. -/
def demotePendingLoop (f : Nat) (s : PromoteState) : PromoteState :=
  match h : worstOf f s.pending with
  | none => s
  | some worst =>
    if worst.subPool < BaseFeePoolBits ∨ worst.minFeeCap < f then
      if BaseFeePoolBits ≤ worst.subPool then
        demotePendingLoop f { s with pending := s.pending.erase worst
                                     baseFee := poolAdd .baseFee (popped worst) s.baseFee }
      else if QueuedPoolBits ≤ worst.subPool then
        demotePendingLoop f { s with pending := s.pending.erase worst
                                     queued := poolAdd .queued (popped worst) s.queued }
      else
        demotePendingLoop f { s with pending := s.pending.erase worst
                                     discarded := (popped worst, .FeeTooLow) :: s.discarded }
    else s
termination_by s.pending.length
decreasing_by
  all_goals exact erase_length_lt (worstOf_mem h)

/-- Phase 2 of `promote`: move the best of BaseFee to Pending while
`best.subPool >= BaseFeePoolBits && best.minFeeCap >= pendingBaseFee`. -/
def promoteBaseFeeLoop (f : Nat) (s : PromoteState) : PromoteState :=
  match h : bestOf f s.baseFee with
  | none => s
  | some best =>
    if BaseFeePoolBits ≤ best.subPool ∧ f ≤ best.minFeeCap then
      promoteBaseFeeLoop f { s with baseFee := s.baseFee.erase best
                                    pending := poolAdd .pending (popped best) s.pending }
    else s
termination_by s.baseFee.length
decreasing_by
  exact erase_length_lt (bestOf_mem h)

/-- Phase 3 of `promote`: demote the worst of BaseFee while
`worst.subPool < BaseFeePoolBits`; destination Queued or discard `FeeTooLow`. -/
def demoteBaseFeeLoop (f : Nat) (s : PromoteState) : PromoteState :=
  match h : worstOf f s.baseFee with
  | none => s
  | some worst =>
    if worst.subPool < BaseFeePoolBits then
      if QueuedPoolBits ≤ worst.subPool then
        demoteBaseFeeLoop f { s with baseFee := s.baseFee.erase worst
                                     queued := poolAdd .queued (popped worst) s.queued }
      else
        demoteBaseFeeLoop f { s with baseFee := s.baseFee.erase worst
                                     discarded := (popped worst, .FeeTooLow) :: s.discarded }
    else s
termination_by s.baseFee.length
decreasing_by
  all_goals exact erase_length_lt (worstOf_mem h)

/-- Phase 4 of `promote`: move the best of Queued, while
`best.subPool >= BaseFeePoolBits`, to Pending when its `minFeeCap` clears
the pending base fee, else to BaseFee. -/
def promoteQueuedLoop (f : Nat) (s : PromoteState) : PromoteState :=
  match h : bestOf f s.queued with
  | none => s
  | some best =>
    if BaseFeePoolBits ≤ best.subPool then
      if f ≤ best.minFeeCap then
        promoteQueuedLoop f { s with queued := s.queued.erase best
                                     pending := poolAdd .pending (popped best) s.pending }
      else
        promoteQueuedLoop f { s with queued := s.queued.erase best
                                     baseFee := poolAdd .baseFee (popped best) s.baseFee }
    else s
termination_by s.queued.length
decreasing_by
  all_goals exact erase_length_lt (bestOf_mem h)

/-- Phase 5 of `promote`: discard the worst of Queued with `FeeTooLow`
while `worst.subPool < QueuedPoolBits`. -/
def discardQueuedLoop (f : Nat) (s : PromoteState) : PromoteState :=
  match h : worstOf f s.queued with
  | none => s
  | some worst =>
    if worst.subPool < QueuedPoolBits then
      discardQueuedLoop f { s with queued := s.queued.erase worst
                                   discarded := (popped worst, .FeeTooLow) :: s.discarded }
    else s
termination_by s.queued.length
decreasing_by
  exact erase_length_lt (worstOf_mem h)

/-- Phase 6a of `promote`: pop the worst of Pending with
`PendingPoolOverflow` while over the configured limit. -/
def enforcePendingLimit (f limit : Nat) (s : PromoteState) : PromoteState :=
  if hl : limit < s.pending.length then
    match h : worstOf f s.pending with
    | none => s
    | some w =>
      enforcePendingLimit f limit
        { s with pending := s.pending.erase w
                 discarded := (popped w, .PendingPoolOverflow) :: s.discarded }
  else s
termination_by s.pending.length
decreasing_by
  exact erase_length_lt (worstOf_mem h)

/-- Phase 6b of `promote`: pop the worst of BaseFee with
`BaseFeePoolOverflow` while over the configured limit. -/
def enforceBaseFeeLimit (f limit : Nat) (s : PromoteState) : PromoteState :=
  if hl : limit < s.baseFee.length then
    match h : worstOf f s.baseFee with
    | none => s
    | some w =>
      enforceBaseFeeLimit f limit
        { s with baseFee := s.baseFee.erase w
                 discarded := (popped w, .BaseFeePoolOverflow) :: s.discarded }
  else s
termination_by s.baseFee.length
decreasing_by
  exact erase_length_lt (worstOf_mem h)

/-- Phase 6c of `promote`: pop the worst of Queued with
`QueuedPoolOverflow` while over the configured limit. -/
def enforceQueuedLimit (f limit : Nat) (s : PromoteState) : PromoteState :=
  if hl : limit < s.queued.length then
    match h : worstOf f s.queued with
    | none => s
    | some w =>
      enforceQueuedLimit f limit
        { s with queued := s.queued.erase w
                 discarded := (popped w, .QueuedPoolOverflow) :: s.discarded }
  else s
termination_by s.queued.length
decreasing_by
  exact erase_length_lt (worstOf_mem h)

/-- Phases 1-5 of `promote`: reassert sub-pool membership. -/
def promoteCore (f : Nat) (s : PromoteState) : PromoteState :=
  discardQueuedLoop f (promoteQueuedLoop f (demoteBaseFeeLoop f
    (promoteBaseFeeLoop f (demotePendingLoop f s))))

/-- `promote` from pool.go: the five membership phases followed by the
three capacity-enforcement loops. -/
def promote (f limP limB limQ : Nat) (s : PromoteState) : PromoteState :=
  enforceQueuedLimit f limQ (enforceBaseFeeLimit f limB
    (enforcePendingLimit f limP (promoteCore f s)))

end TxPoolSpec

namespace TxPoolSpec

/-- The Pending membership condition of spec §8 invariant 3 (the negation of
the phase-1 demotion guard): `subPool >= BaseFeePoolBits` and
`minFeeCap >= pendingBaseFee`. -/
def pendingOk (m : MetaTx) (f : Nat) : Prop :=
  BaseFeePoolBits ≤ m.subPool ∧ f ≤ m.minFeeCap

instance (m : MetaTx) (f : Nat) : Decidable (pendingOk m f) := by
  unfold pendingOk; infer_instance

/-- Well-formedness of a stored marker, an invariant of every reachable
pool state: the marker is a 6-bit value and never stores the virtual
`EnoughFeeCapBlock` bit (`newMetaTx` starts from `IsLocal` or 0 and
`onSenderStateChange` only sets bits 4, 8, 16, 32). -/
def WFmarker (m : MetaTx) : Prop :=
  m.subPool < 64 ∧ m.subPool &&& EnoughFeeCapBlock = 0

theorem or2_ge62 : ∀ s < 64, 60 ≤ s → 62 ≤ s ||| 2 := by decide
theorem or2_lt62 : ∀ s < 64, s < 60 → s ||| 2 < 62 := by decide
theorem band2_lt62 : ∀ s < 64, s &&& 2 = 0 → s < 62 := by decide

theorem effMarker_ge62 {m : MetaTx} {f : Nat} (hWF : WFmarker m) (hOk : pendingOk m f) :
    62 ≤ effMarker m f := by
  rcases hOk with ⟨h1, h2⟩
  have h1' : 60 ≤ m.subPool := h1
  unfold effMarker
  rw [if_pos h2]
  exact or2_ge62 m.subPool hWF.1 h1'

theorem effMarker_lt62 {m : MetaTx} {f : Nat} (hWF : WFmarker m) (hBad : ¬ pendingOk m f) :
    effMarker m f < 62 := by
  unfold pendingOk at hBad
  push_neg at hBad
  unfold effMarker
  have hB : BaseFeePoolBits = 60 := rfl
  by_cases hf : f ≤ m.minFeeCap
  · rw [if_pos hf]
    have hs : m.subPool < 60 := by
      by_contra hge
      exact absurd hf (not_le.mpr (hBad (by omega)))
    exact or2_lt62 _ hWF.1 hs
  · rw [if_neg hf]
    exact band2_lt62 _ hWF.1 hWF.2

theorem worse_bad_good {a b : MetaTx} {f : Nat} (hWFa : WFmarker a) (hWFb : WFmarker b)
    (ha : ¬ pendingOk a f) (hb : pendingOk b f) : worse a b f = true := by
  have h1 : effMarker a f < 62 := effMarker_lt62 hWFa ha
  have h2 : 62 ≤ effMarker b f := effMarker_ge62 hWFb hb
  unfold worse
  rw [if_pos (by omega : effMarker a f ≠ effMarker b f)]
  simp only [decide_eq_true_eq]
  omega

theorem worse_good_bad {a b : MetaTx} {f : Nat} (hWFa : WFmarker a) (hWFb : WFmarker b)
    (ha : pendingOk a f) (hb : ¬ pendingOk b f) : worse a b f = false := by
  have h1 : 62 ≤ effMarker a f := effMarker_ge62 hWFa ha
  have h2 : effMarker b f < 62 := effMarker_lt62 hWFb hb
  unfold worse
  rw [if_pos (by omega : effMarker a f ≠ effMarker b f)]
  simp only [decide_eq_false_iff_not]
  omega

theorem foldl_selWorse_bad (f : Nat) (l : List MetaTx) (a : MetaTx)
    (hWFa : WFmarker a) (hWFl : ∀ m ∈ l, WFmarker m)
    (hbad : ¬ pendingOk a f ∨ ∃ m ∈ l, ¬ pendingOk m f) :
    ¬ pendingOk (l.foldl (selWorse f) a) f := by
  induction l generalizing a with
  | nil =>
    simp only [List.foldl_nil]
    rcases hbad with h | ⟨m, hm, _⟩
    · exact h
    · simp at hm
  | cons b t ih =>
    simp only [List.foldl_cons]
    have hWFb : WFmarker b := hWFl b (by simp)
    have hWFt : ∀ m ∈ t, WFmarker m := fun m hm => hWFl m (by simp [hm])
    have hWFsel : WFmarker (selWorse f a b) := by
      unfold selWorse; split <;> assumption
    apply ih (selWorse f a b) hWFsel hWFt
    rcases hbad with ha | ⟨m, hm, hmBad⟩
    · left
      unfold selWorse
      by_cases hOkb : pendingOk b f
      · rw [if_neg (by simp [worse_good_bad hWFb hWFa hOkb ha])]
        exact ha
      · split
        · exact hOkb
        · exact ha
    · rcases List.mem_cons.mp hm with rfl | hmt
      · left
        unfold selWorse
        by_cases hOka : pendingOk a f
        · rw [if_pos (worse_bad_good hWFb hWFa hmBad hOka)]
          exact hmBad
        · split
          · exact hmBad
          · exact hOka
      · right; exact ⟨m, hmt, hmBad⟩

theorem worstOf_good_all {f : Nat} {l : List MetaTx} {w : MetaTx}
    (h : worstOf f l = some w) (hWF : ∀ m ∈ l, WFmarker m)
    (hOk : pendingOk w f) : ∀ m ∈ l, pendingOk m f := by
  intro m hm
  by_contra hmBad
  cases l with
  | nil => simp at hm
  | cons a t =>
    simp only [worstOf, Option.some.injEq] at h
    have hb := foldl_selWorse_bad f t a (hWF a (by simp)) (fun x hx => hWF x (by simp [hx]))
      (by rcases List.mem_cons.mp hm with rfl | hmt
          · exact Or.inl hmBad
          · exact Or.inr ⟨m, hmt, hmBad⟩)
    rw [h] at hb
    exact hb hOk

end TxPoolSpec

namespace TxPoolSpec

theorem erase_WF {l : List MetaTx} {w : MetaTx} (hWF : ∀ m ∈ l, WFmarker m) :
    ∀ m ∈ l.erase w, WFmarker m :=
  fun m hm => hWF m (List.erase_subset _ _ hm)

theorem erase_length_le {l : List MetaTx} (w : MetaTx) {n : Nat} (hlen : l.length ≤ n + 1)
    (hw : w ∈ l) : (l.erase w).length ≤ n := by
  rw [List.length_erase_of_mem hw]
  omega

theorem demotePendingLoop_bounded (f : Nat) :
    ∀ (n : Nat) (s : PromoteState), s.pending.length ≤ n → (∀ m ∈ s.pending, WFmarker m) →
    ∀ m ∈ (demotePendingLoop f s).pending, pendingOk m f := by
  intro n
  induction n with
  | zero =>
    intro s hlen hWF m hm
    have hnil : s.pending = [] := List.length_eq_zero.mp (Nat.le_zero.mp hlen)
    rw [demotePendingLoop] at hm
    rw [hnil] at hm
    simp only [worstOf] at hm
    rw [hnil] at hm
    simp at hm
  | succ n ih =>
    intro s hlen hWF m hm
    rw [demotePendingLoop] at hm
    split at hm
    · rename_i heq
      have : s.pending = [] := by
        cases hp : s.pending with
        | nil => rfl
        | cons x t => rw [hp] at heq; simp [worstOf] at heq
      rw [this] at hm
      simp at hm
    · rename_i worst heq
      have hwmem : worst ∈ s.pending := worstOf_mem heq
      split at hm
      · rename_i hviol
        split at hm
        · exact ih _ (erase_length_le worst hlen hwmem) (erase_WF hWF) m hm
        · split at hm
          · exact ih _ (erase_length_le worst hlen hwmem) (erase_WF hWF) m hm
          · exact ih _ (erase_length_le worst hlen hwmem) (erase_WF hWF) m hm
      · rename_i hok
        have hOkW : pendingOk worst f := by
          unfold pendingOk
          push_neg at hok
          exact hok
        exact worstOf_good_all heq hWF hOkW m hm

end TxPoolSpec

namespace TxPoolSpec

theorem promoteBaseFeeLoop_pending (f : Nat) :
    ∀ (n : Nat) (s : PromoteState), s.baseFee.length ≤ n →
    (∀ m ∈ s.pending, pendingOk m f) →
    ∀ m ∈ (promoteBaseFeeLoop f s).pending, pendingOk m f := by
  intro n
  induction n with
  | zero =>
    intro s hlen hOk m hm
    rw [promoteBaseFeeLoop] at hm
    split at hm
    · exact hOk m hm
    · rename_i best heq
      exact absurd (List.length_pos.mpr (List.ne_nil_of_mem (bestOf_mem heq))) (by omega)
  | succ n ih =>
    intro s hlen hOk m hm
    rw [promoteBaseFeeLoop] at hm
    split at hm
    · exact hOk m hm
    · rename_i best heq
      split at hm
      · rename_i hguard
        refine ih _ (erase_length_le best hlen (bestOf_mem heq)) ?_ m hm
        intro x hx
        rcases List.mem_cons.mp hx with rfl | hxt
        · exact ⟨hguard.1, hguard.2⟩
        · exact hOk x hxt
      · exact hOk m hm

theorem promoteQueuedLoop_pending (f : Nat) :
    ∀ (n : Nat) (s : PromoteState), s.queued.length ≤ n →
    (∀ m ∈ s.pending, pendingOk m f) →
    ∀ m ∈ (promoteQueuedLoop f s).pending, pendingOk m f := by
  intro n
  induction n with
  | zero =>
    intro s hlen hOk m hm
    rw [promoteQueuedLoop] at hm
    split at hm
    · exact hOk m hm
    · rename_i best heq
      exact absurd (List.length_pos.mpr (List.ne_nil_of_mem (bestOf_mem heq))) (by omega)
  | succ n ih =>
    intro s hlen hOk m hm
    rw [promoteQueuedLoop] at hm
    split at hm
    · exact hOk m hm
    · rename_i best heq
      split at hm
      · rename_i hmarker
        split at hm
        · rename_i hfee
          refine ih _ (erase_length_le best hlen (bestOf_mem heq)) ?_ m hm
          intro x hx
          rcases List.mem_cons.mp hx with rfl | hxt
          · exact ⟨hmarker, hfee⟩
          · exact hOk x hxt
        · refine ih _ ?_ ?_ m hm
          · exact erase_length_le best hlen (bestOf_mem heq)
          · exact hOk
      · exact hOk m hm

theorem demoteBaseFeeLoop_pending_eq (f : Nat) :
    ∀ (n : Nat) (s : PromoteState), s.baseFee.length ≤ n →
    (demoteBaseFeeLoop f s).pending = s.pending := by
  intro n
  induction n with
  | zero =>
    intro s hlen
    rw [demoteBaseFeeLoop]
    split
    · rfl
    · rename_i worst heq
      exact absurd (List.length_pos.mpr (List.ne_nil_of_mem (worstOf_mem heq))) (by omega)
  | succ n ih =>
    intro s hlen
    rw [demoteBaseFeeLoop]
    split
    · rfl
    · rename_i worst heq
      split
      · split
        · exact ih _ (erase_length_le worst hlen (worstOf_mem heq))
        · exact ih _ (erase_length_le worst hlen (worstOf_mem heq))
      · rfl

theorem discardQueuedLoop_pending_eq (f : Nat) :
    ∀ (n : Nat) (s : PromoteState), s.queued.length ≤ n →
    (discardQueuedLoop f s).pending = s.pending := by
  intro n
  induction n with
  | zero =>
    intro s hlen
    rw [discardQueuedLoop]
    split
    · rfl
    · rename_i worst heq
      exact absurd (List.length_pos.mpr (List.ne_nil_of_mem (worstOf_mem heq))) (by omega)
  | succ n ih =>
    intro s hlen
    rw [discardQueuedLoop]
    split
    · rfl
    · rename_i worst heq
      split
      · exact ih _ (erase_length_le worst hlen (worstOf_mem heq))
      · rfl

theorem enforcePendingLimit_pending_sub (f limit : Nat) :
    ∀ (n : Nat) (s : PromoteState), s.pending.length ≤ n →
    ∀ m ∈ (enforcePendingLimit f limit s).pending, m ∈ s.pending := by
  intro n
  induction n with
  | zero =>
    intro s hlen m hm
    rw [enforcePendingLimit] at hm
    split at hm
    · rename_i hl
      split at hm
      · exact hm
      · rename_i w heq
        exact absurd (List.length_pos.mpr (List.ne_nil_of_mem (worstOf_mem heq))) (by omega)
    · exact hm
  | succ n ih =>
    intro s hlen m hm
    rw [enforcePendingLimit] at hm
    split at hm
    · rename_i hl
      split at hm
      · exact hm
      · rename_i w heq
        exact List.erase_subset _ _
          (ih _ (erase_length_le w hlen (worstOf_mem heq)) m hm)
    · exact hm

theorem enforceBaseFeeLimit_pending_eq (f limit : Nat) :
    ∀ (n : Nat) (s : PromoteState), s.baseFee.length ≤ n →
    (enforceBaseFeeLimit f limit s).pending = s.pending := by
  intro n
  induction n with
  | zero =>
    intro s hlen
    rw [enforceBaseFeeLimit]
    split
    · rename_i hl
      split
      · rfl
      · rename_i w heq
        exact absurd (List.length_pos.mpr (List.ne_nil_of_mem (worstOf_mem heq))) (by omega)
    · rfl
  | succ n ih =>
    intro s hlen
    rw [enforceBaseFeeLimit]
    split
    · rename_i hl
      split
      · rfl
      · rename_i w heq
        exact ih _ (erase_length_le w hlen (worstOf_mem heq))
    · rfl

theorem enforceQueuedLimit_pending_eq (f limit : Nat) :
    ∀ (n : Nat) (s : PromoteState), s.queued.length ≤ n →
    (enforceQueuedLimit f limit s).pending = s.pending := by
  intro n
  induction n with
  | zero =>
    intro s hlen
    rw [enforceQueuedLimit]
    split
    · rename_i hl
      split
      · rfl
      · rename_i w heq
        exact absurd (List.length_pos.mpr (List.ne_nil_of_mem (worstOf_mem heq))) (by omega)
    · rfl
  | succ n ih =>
    intro s hlen
    rw [enforceQueuedLimit]
    split
    · rename_i hl
      split
      · rfl
      · rename_i w heq
        exact ih _ (erase_length_le w hlen (worstOf_mem heq))
    · rfl

/-- C1: after `promote` returns, every element of the Pending sub-pool
satisfies `subPool >= BaseFeePoolBits` and `minFeeCap >= pendingBaseFee`.
The hypothesis is the reachable-state marker invariant: stored markers are
6-bit values that never contain the virtual `EnoughFeeCapBlock` bit. -/
theorem claim_c1_promote_pending_invariant (s : PromoteState) (f limP limB limQ : Nat)
    (hWF : ∀ m ∈ s.pending, WFmarker m) :
    ∀ m ∈ (promote f limP limB limQ s).pending,
      BaseFeePoolBits ≤ m.subPool ∧ f ≤ m.minFeeCap := by
  intro m hm
  unfold promote promoteCore at hm
  set s1 := demotePendingLoop f s with hs1
  set s2 := promoteBaseFeeLoop f s1 with hs2
  set s3 := demoteBaseFeeLoop f s2 with hs3
  set s4 := promoteQueuedLoop f s3 with hs4
  set s5 := discardQueuedLoop f s4 with hs5
  set s6 := enforcePendingLimit f limP s5 with hs6
  set s7 := enforceBaseFeeLimit f limB s6 with hs7
  have h1 : ∀ x ∈ s1.pending, pendingOk x f :=
    demotePendingLoop_bounded f s.pending.length s le_rfl hWF
  have h2 : ∀ x ∈ s2.pending, pendingOk x f :=
    promoteBaseFeeLoop_pending f s1.baseFee.length s1 le_rfl h1
  have h3 : ∀ x ∈ s3.pending, pendingOk x f := by
    rw [hs3, demoteBaseFeeLoop_pending_eq f s2.baseFee.length s2 le_rfl]
    exact h2
  have h4 : ∀ x ∈ s4.pending, pendingOk x f :=
    promoteQueuedLoop_pending f s3.queued.length s3 le_rfl h3
  have h5 : ∀ x ∈ s5.pending, pendingOk x f := by
    rw [hs5, discardQueuedLoop_pending_eq f s4.queued.length s4 le_rfl]
    exact h4
  have h6 : ∀ x ∈ s6.pending, pendingOk x f := fun x hx =>
    h5 x (enforcePendingLimit_pending_sub f limP s5.pending.length s5 le_rfl x hx)
  have h7 : ∀ x ∈ s7.pending, pendingOk x f := by
    rw [hs7, enforceBaseFeeLimit_pending_eq f limB s6.baseFee.length s6 le_rfl]
    exact h6
  have h8 : ∀ x ∈ (enforceQueuedLimit f limQ s7).pending, pendingOk x f := by
    rw [enforceQueuedLimit_pending_eq f limQ s7.queued.length s7 le_rfl]
    exact h7
  exact h8 m hm

end TxPoolSpec

namespace TxPoolSpec

theorem enforcePendingLimit_len (f limit : Nat) :
    ∀ (n : Nat) (s : PromoteState), s.pending.length ≤ n →
    (enforcePendingLimit f limit s).pending.length ≤ limit := by
  intro n
  induction n with
  | zero =>
    intro s hlen
    rw [enforcePendingLimit]
    split
    · rename_i hl
      split
      · omega
      · rename_i w heq
        exact absurd (List.length_pos.mpr (List.ne_nil_of_mem (worstOf_mem heq))) (by omega)
    · rename_i hl
      omega
  | succ n ih =>
    intro s hlen
    rw [enforcePendingLimit]
    split
    · rename_i hl
      split
      · rename_i heq
        have : s.pending = [] := by
          cases hp : s.pending with
          | nil => rfl
          | cons x t => rw [hp] at heq; simp [worstOf] at heq
        rw [this] at hl
        simp at hl
      · rename_i w heq
        exact ih _ (erase_length_le w hlen (worstOf_mem heq))
    · rename_i hl
      omega

theorem enforceBaseFeeLimit_len (f limit : Nat) :
    ∀ (n : Nat) (s : PromoteState), s.baseFee.length ≤ n →
    (enforceBaseFeeLimit f limit s).baseFee.length ≤ limit := by
  intro n
  induction n with
  | zero =>
    intro s hlen
    rw [enforceBaseFeeLimit]
    split
    · rename_i hl
      split
      · omega
      · rename_i w heq
        exact absurd (List.length_pos.mpr (List.ne_nil_of_mem (worstOf_mem heq))) (by omega)
    · rename_i hl
      omega
  | succ n ih =>
    intro s hlen
    rw [enforceBaseFeeLimit]
    split
    · rename_i hl
      split
      · rename_i heq
        have : s.baseFee = [] := by
          cases hp : s.baseFee with
          | nil => rfl
          | cons x t => rw [hp] at heq; simp [worstOf] at heq
        rw [this] at hl
        simp at hl
      · rename_i w heq
        exact ih _ (erase_length_le w hlen (worstOf_mem heq))
    · rename_i hl
      omega

theorem enforceQueuedLimit_len (f limit : Nat) :
    ∀ (n : Nat) (s : PromoteState), s.queued.length ≤ n →
    (enforceQueuedLimit f limit s).queued.length ≤ limit := by
  intro n
  induction n with
  | zero =>
    intro s hlen
    rw [enforceQueuedLimit]
    split
    · rename_i hl
      split
      · omega
      · rename_i w heq
        exact absurd (List.length_pos.mpr (List.ne_nil_of_mem (worstOf_mem heq))) (by omega)
    · rename_i hl
      omega
  | succ n ih =>
    intro s hlen
    rw [enforceQueuedLimit]
    split
    · rename_i hl
      split
      · rename_i heq
        have : s.queued = [] := by
          cases hp : s.queued with
          | nil => rfl
          | cons x t => rw [hp] at heq; simp [worstOf] at heq
        rw [this] at hl
        simp at hl
      · rename_i w heq
        exact ih _ (erase_length_le w hlen (worstOf_mem heq))
    · rename_i hl
      omega

end TxPoolSpec

namespace TxPoolSpec

theorem enforcePendingLimit_baseFee_eq (f limit : Nat) :
    ∀ (n : Nat) (s : PromoteState), s.pending.length ≤ n →
    (enforcePendingLimit f limit s).baseFee = s.baseFee := by
  intro n
  induction n with
  | zero =>
    intro s hlen
    rw [enforcePendingLimit]
    split
    · split
      · rfl
      · rename_i w heq
        exact absurd (List.length_pos.mpr (List.ne_nil_of_mem (worstOf_mem heq))) (by omega)
    · rfl
  | succ n ih =>
    intro s hlen
    rw [enforcePendingLimit]
    split
    · split
      · rfl
      · rename_i w heq
        exact ih _ (erase_length_le w hlen (worstOf_mem heq))
    · rfl

theorem enforcePendingLimit_queued_eq (f limit : Nat) :
    ∀ (n : Nat) (s : PromoteState), s.pending.length ≤ n →
    (enforcePendingLimit f limit s).queued = s.queued := by
  intro n
  induction n with
  | zero =>
    intro s hlen
    rw [enforcePendingLimit]
    split
    · split
      · rfl
      · rename_i w heq
        exact absurd (List.length_pos.mpr (List.ne_nil_of_mem (worstOf_mem heq))) (by omega)
    · rfl
  | succ n ih =>
    intro s hlen
    rw [enforcePendingLimit]
    split
    · split
      · rfl
      · rename_i w heq
        exact ih _ (erase_length_le w hlen (worstOf_mem heq))
    · rfl

theorem enforceBaseFeeLimit_queued_eq (f limit : Nat) :
    ∀ (n : Nat) (s : PromoteState), s.baseFee.length ≤ n →
    (enforceBaseFeeLimit f limit s).queued = s.queued := by
  intro n
  induction n with
  | zero =>
    intro s hlen
    rw [enforceBaseFeeLimit]
    split
    · split
      · rfl
      · rename_i w heq
        exact absurd (List.length_pos.mpr (List.ne_nil_of_mem (worstOf_mem heq))) (by omega)
    · rfl
  | succ n ih =>
    intro s hlen
    rw [enforceBaseFeeLimit]
    split
    · split
      · rfl
      · rename_i w heq
        exact ih _ (erase_length_le w hlen (worstOf_mem heq))
    · rfl

theorem enforceQueuedLimit_baseFee_eq (f limit : Nat) :
    ∀ (n : Nat) (s : PromoteState), s.queued.length ≤ n →
    (enforceQueuedLimit f limit s).baseFee = s.baseFee := by
  intro n
  induction n with
  | zero =>
    intro s hlen
    rw [enforceQueuedLimit]
    split
    · split
      · rfl
      · rename_i w heq
        exact absurd (List.length_pos.mpr (List.ne_nil_of_mem (worstOf_mem heq))) (by omega)
    · rfl
  | succ n ih =>
    intro s hlen
    rw [enforceQueuedLimit]
    split
    · split
      · rfl
      · rename_i w heq
        exact ih _ (erase_length_le w hlen (worstOf_mem heq))
    · rfl

theorem enforcePendingLimit_discarded (f limit : Nat) :
    ∀ (n : Nat) (s : PromoteState), s.pending.length ≤ n →
    ∃ d, (enforcePendingLimit f limit s).discarded = d ++ s.discarded ∧
      ∀ e ∈ d, e.2 = DiscardReason.PendingPoolOverflow ∧ e.1.tx ∈ s.pending.map (·.tx) := by
  intro n
  induction n with
  | zero =>
    intro s hlen
    rw [enforcePendingLimit]
    split
    · split
      · exact ⟨[], by simp⟩
      · rename_i w heq
        exact absurd (List.length_pos.mpr (List.ne_nil_of_mem (worstOf_mem heq))) (by omega)
    · exact ⟨[], by simp⟩
  | succ n ih =>
    intro s hlen
    rw [enforcePendingLimit]
    split
    · split
      · exact ⟨[], by simp⟩
      · rename_i w heq
        obtain ⟨d, hd, hall⟩ := ih { s with pending := s.pending.erase w, discarded := (popped w, DiscardReason.PendingPoolOverflow) :: s.discarded } (erase_length_le w hlen (worstOf_mem heq))
        refine ⟨d ++ [(popped w, DiscardReason.PendingPoolOverflow)], ?_, ?_⟩
        · rw [hd]
          simp
        · intro e he
          rcases List.mem_append.mp he with he | he
          · obtain ⟨h1, h2⟩ := hall e he
            exact ⟨h1, List.map_subset _ (List.erase_subset _ _) h2⟩
          · simp only [List.mem_singleton] at he
            subst he
            exact ⟨rfl, List.mem_map.mpr ⟨w, worstOf_mem heq, rfl⟩⟩
    · exact ⟨[], by simp⟩

theorem enforceBaseFeeLimit_discarded (f limit : Nat) :
    ∀ (n : Nat) (s : PromoteState), s.baseFee.length ≤ n →
    ∃ d, (enforceBaseFeeLimit f limit s).discarded = d ++ s.discarded ∧
      ∀ e ∈ d, e.2 = DiscardReason.BaseFeePoolOverflow ∧ e.1.tx ∈ s.baseFee.map (·.tx) := by
  intro n
  induction n with
  | zero =>
    intro s hlen
    rw [enforceBaseFeeLimit]
    split
    · split
      · exact ⟨[], by simp⟩
      · rename_i w heq
        exact absurd (List.length_pos.mpr (List.ne_nil_of_mem (worstOf_mem heq))) (by omega)
    · exact ⟨[], by simp⟩
  | succ n ih =>
    intro s hlen
    rw [enforceBaseFeeLimit]
    split
    · split
      · exact ⟨[], by simp⟩
      · rename_i w heq
        obtain ⟨d, hd, hall⟩ := ih { s with baseFee := s.baseFee.erase w, discarded := (popped w, DiscardReason.BaseFeePoolOverflow) :: s.discarded } (erase_length_le w hlen (worstOf_mem heq))
        refine ⟨d ++ [(popped w, DiscardReason.BaseFeePoolOverflow)], ?_, ?_⟩
        · rw [hd]
          simp
        · intro e he
          rcases List.mem_append.mp he with he | he
          · obtain ⟨h1, h2⟩ := hall e he
            exact ⟨h1, List.map_subset _ (List.erase_subset _ _) h2⟩
          · simp only [List.mem_singleton] at he
            subst he
            exact ⟨rfl, List.mem_map.mpr ⟨w, worstOf_mem heq, rfl⟩⟩
    · exact ⟨[], by simp⟩

theorem enforceQueuedLimit_discarded (f limit : Nat) :
    ∀ (n : Nat) (s : PromoteState), s.queued.length ≤ n →
    ∃ d, (enforceQueuedLimit f limit s).discarded = d ++ s.discarded ∧
      ∀ e ∈ d, e.2 = DiscardReason.QueuedPoolOverflow ∧ e.1.tx ∈ s.queued.map (·.tx) := by
  intro n
  induction n with
  | zero =>
    intro s hlen
    rw [enforceQueuedLimit]
    split
    · split
      · exact ⟨[], by simp⟩
      · rename_i w heq
        exact absurd (List.length_pos.mpr (List.ne_nil_of_mem (worstOf_mem heq))) (by omega)
    · exact ⟨[], by simp⟩
  | succ n ih =>
    intro s hlen
    rw [enforceQueuedLimit]
    split
    · split
      · exact ⟨[], by simp⟩
      · rename_i w heq
        obtain ⟨d, hd, hall⟩ := ih { s with queued := s.queued.erase w, discarded := (popped w, DiscardReason.QueuedPoolOverflow) :: s.discarded } (erase_length_le w hlen (worstOf_mem heq))
        refine ⟨d ++ [(popped w, DiscardReason.QueuedPoolOverflow)], ?_, ?_⟩
        · rw [hd]
          simp
        · intro e he
          rcases List.mem_append.mp he with he | he
          · obtain ⟨h1, h2⟩ := hall e he
            exact ⟨h1, List.map_subset _ (List.erase_subset _ _) h2⟩
          · simp only [List.mem_singleton] at he
            subst he
            exact ⟨rfl, List.mem_map.mpr ⟨w, worstOf_mem heq, rfl⟩⟩
    · exact ⟨[], by simp⟩

end TxPoolSpec

namespace TxPoolSpec

instance (m : MetaTx) : Decidable (WFmarker m) := by
  unfold WFmarker; infer_instance

/-- A sample promote state: one well-formed pending element and one
baseFee element. -/
def sPromoteSample : PromoteState :=
  { pending := [mtSampleA], baseFee := [mtSampleB], queued := [], discarded := [] }

/-- Witness for C1 at a concrete state, base fee 10 and limits 10. -/
theorem claim_c1_witness :
    (∀ m ∈ sPromoteSample.pending, WFmarker m) ∧
    (∀ m ∈ (promote 10 10 10 10 sPromoteSample).pending,
      BaseFeePoolBits ≤ m.subPool ∧ 10 ≤ m.minFeeCap) :=
  ⟨by decide, claim_c1_promote_pending_invariant sPromoteSample 10 10 10 10 (by decide)⟩

/-- C7: after `promote`, each sub-pool is within its configured limit, and
the capacity phase discards carry exactly the matching overflow reason and
only evict transactions that were in the corresponding pool when the
capacity phase began. -/
theorem claim_c7_promote_capacity (s : PromoteState) (f limP limB limQ : Nat) :
    (promote f limP limB limQ s).pending.length ≤ limP ∧
    (promote f limP limB limQ s).baseFee.length ≤ limB ∧
    (promote f limP limB limQ s).queued.length ≤ limQ ∧
    ∃ dP dB dQ,
      (promote f limP limB limQ s).discarded =
        dQ ++ dB ++ dP ++ (promoteCore f s).discarded ∧
      (∀ e ∈ dP, e.2 = DiscardReason.PendingPoolOverflow ∧
        e.1.tx ∈ (promoteCore f s).pending.map (·.tx)) ∧
      (∀ e ∈ dB, e.2 = DiscardReason.BaseFeePoolOverflow ∧
        e.1.tx ∈ (promoteCore f s).baseFee.map (·.tx)) ∧
      (∀ e ∈ dQ, e.2 = DiscardReason.QueuedPoolOverflow ∧
        e.1.tx ∈ (promoteCore f s).queued.map (·.tx)) := by
  unfold promote
  set s5 := promoteCore f s with hs5
  set s6 := enforcePendingLimit f limP s5 with hs6
  set s7 := enforceBaseFeeLimit f limB s6 with hs7
  have hp6 : s6.pending.length ≤ limP :=
    enforcePendingLimit_len f limP s5.pending.length s5 le_rfl
  have hp7 : s7.pending = s6.pending :=
    enforceBaseFeeLimit_pending_eq f limB s6.baseFee.length s6 le_rfl
  have hp8 : (enforceQueuedLimit f limQ s7).pending = s7.pending :=
    enforceQueuedLimit_pending_eq f limQ s7.queued.length s7 le_rfl
  have hb7 : s7.baseFee.length ≤ limB :=
    enforceBaseFeeLimit_len f limB s6.baseFee.length s6 le_rfl
  have hb8 : (enforceQueuedLimit f limQ s7).baseFee = s7.baseFee :=
    enforceQueuedLimit_baseFee_eq f limQ s7.queued.length s7 le_rfl
  have hq8 : (enforceQueuedLimit f limQ s7).queued.length ≤ limQ :=
    enforceQueuedLimit_len f limQ s7.queued.length s7 le_rfl
  have e6b : s6.baseFee = s5.baseFee :=
    enforcePendingLimit_baseFee_eq f limP s5.pending.length s5 le_rfl
  have e6q : s6.queued = s5.queued :=
    enforcePendingLimit_queued_eq f limP s5.pending.length s5 le_rfl
  have e7q : s7.queued = s6.queued :=
    enforceBaseFeeLimit_queued_eq f limB s6.baseFee.length s6 le_rfl
  obtain ⟨dP, hdP, hPall⟩ :=
    enforcePendingLimit_discarded f limP s5.pending.length s5 le_rfl
  obtain ⟨dB, hdB, hBall⟩ :=
    enforceBaseFeeLimit_discarded f limB s6.baseFee.length s6 le_rfl
  obtain ⟨dQ, hdQ, hQall⟩ :=
    enforceQueuedLimit_discarded f limQ s7.queued.length s7 le_rfl
  refine ⟨?_, ?_, ?_, dP, dB, dQ, ?_, ?_, ?_, ?_⟩
  · rw [hp8, hp7]; exact hp6
  · rw [hb8]; exact hb7
  · exact hq8
  · rw [hdQ, hdB, hdP]
    simp [List.append_assoc]
  · exact hPall
  · intro e he
    obtain ⟨h1, h2⟩ := hBall e he
    rw [e6b] at h2
    exact ⟨h1, h2⟩
  · intro e he
    obtain ⟨h1, h2⟩ := hQall e he
    rw [e7q, e6q] at h2
    exact ⟨h1, h2⟩

end TxPoolSpec

namespace TxPoolSpec

/-- Key equality on the `BySenderAndNonce` index: the B-tree orders by
`(senderID, nonce)` (`sortByNonce.Less`). -/
def sameKey (a b : MetaTx) : Bool :=
  a.tx.senderID == b.tx.senderID && a.tx.nonce == b.tx.nonce

/-- Strict key order of `sortByNonce.Less`. -/
def keyLt (a b : MetaTx) : Bool :=
  a.tx.senderID < b.tx.senderID ||
    (a.tx.senderID == b.tx.senderID && a.tx.nonce < b.tx.nonce)

/-- In-memory pool state touched by `addLocked`, `discardLocked`,
`removeMined` and `punishSpammer`: the `BySenderAndNonce` index (`all`,
kept sorted by key), the three sub-pools, `byHash`, `deletedTxs`, the
discard-reason LRU (modelled as a log, newest first) and the is-local
LRU (modelled as a hash list). -/
structure PoolState where
  all : List MetaTx
  pending : List MetaTx
  baseFee : List MetaTx
  queued : List MetaTx
  byHash : List (Nat × MetaTx)
  deletedTxs : List MetaTx
  discardLog : List (Nat × DiscardReason)
  isLocalLRU : List Nat
  deriving Repr

/-- `BySenderAndNonce.get`: point lookup by `(senderID, nonce)`. -/
def allGet (l : List MetaTx) (senderID nonce : Nat) : Option MetaTx :=
  l.find? (fun m => m.tx.senderID == senderID && m.tx.nonce == nonce)

/-- `BySenderAndNonce.delete`: the B-tree removes the entry whose key
equals the argument's key. -/
def allDelete (l : List MetaTx) (mt : MetaTx) : List MetaTx :=
  l.filter (fun m => !(sameKey m mt))

/-- `BySenderAndNonce.replaceOrInsert` on a state where the key is free:
ordered insertion by `(senderID, nonce)`. -/
def allInsert (mt : MetaTx) : List MetaTx → List MetaTx
  | [] => [mt]
  | x :: xs => if keyLt mt x then mt :: x :: xs else x :: allInsert mt xs

/-- Go map assignment `byHash[hash] = mt`. -/
def byHashPut (h : Nat) (mt : MetaTx) (l : List (Nat × MetaTx)) : List (Nat × MetaTx) :=
  (h, mt) :: l.filter (fun p => p.1 != h)

/-- `simplelru.LRU.Add` of a hash (capacity abstracted away). -/
def lruAdd (h : Nat) (l : List Nat) : List Nat :=
  h :: l.filter (fun x => x != h)

/-- `TxPool.discardLocked`: delete from `byHash`, append to `deletedTxs`,
delete from the `BySenderAndNonce` index, record the reason in the LRU. -/
def discardLocked (s : PoolState) (mt : MetaTx) (reason : DiscardReason) : PoolState :=
  { s with byHash := s.byHash.filter (fun p => p.1 != mt.tx.idHash)
           deletedTxs := s.deletedTxs ++ [mt]
           all := allDelete s.all mt
           discardLog := (mt.tx.idHash, reason) :: s.discardLog }

/-- Removal of a `metaTx` from the sub-pool named by its
`currentSubPool` (the `switch` in `addLocked`, `removeMined` and
`onSenderStateChange`); `SubPool.Remove` also zeroes `currentSubPool` on
the removed object, `PendingPool.Remove` does not. Returns the updated
state and the removed object's new value. -/
def removeFromSubPool (s : PoolState) (mt : MetaTx) : PoolState × MetaTx :=
  match mt.currentSubPool with
  | .pending => ({ s with pending := s.pending.erase mt }, mt)
  | .baseFee => ({ s with baseFee := s.baseFee.erase mt }, { mt with currentSubPool := .unset })
  | .queued => ({ s with queued := s.queued.erase mt }, { mt with currentSubPool := .unset })
  | .unset => (s, mt)

/-- The tail of `addLocked` common to both branches: store in `byHash`,
insert into the index, remember local hashes, and add to the Queued
sub-pool. `queued.Add` mutates the shared object's `currentSubPool` to
Queued, so the final object value is inserted in every container. -/
def finishAdd (s : PoolState) (mt : MetaTx) : DiscardReason × PoolState :=
  let mtQ := { mt with currentSubPool := SubPoolType.queued }
  let s1 := { s with byHash := byHashPut mt.tx.idHash mtQ s.byHash
                     all := allInsert mtQ s.all }
  let s2 := if mt.subPool &&& IsLocal ≠ 0
            then { s1 with isLocalLRU := lruAdd mt.tx.idHash s1.isLocalLRU }
            else s1
  (.NotSet, { s2 with queued := mtQ :: s2.queued })

/-- `TxPool.addLocked`: replacement policy by `(sender, nonce)` key. The
thresholds are computed in `uint64` arithmetic:
`found.Tx.tip * (100 + priceBump) / 100` with wrap-around on the product. -/
def addLocked (priceBump : Nat) (s : PoolState) (mt : MetaTx) : DiscardReason × PoolState :=
  match allGet s.all mt.tx.senderID mt.tx.nonce with
  | some found =>
    let tipThreshold := found.tx.tip * ((100 + priceBump) % U64) % U64 / 100
    let feecapThreshold := found.tx.feeCap * ((100 + priceBump) % U64) % U64 / 100
    if mt.tx.tip < tipThreshold ∨ mt.tx.feeCap < feecapThreshold then
      (.NotReplaced, s)
    else
      let sv := removeFromSubPool s found
      finishAdd (discardLocked sv.1 sv.2 .ReplacedByHigherTip) mt
  | none => finishAdd s mt

end TxPoolSpec

namespace TxPoolSpec

theorem finishAdd_fst (s : PoolState) (mt : MetaTx) : (finishAdd s mt).1 = .NotSet := rfl

theorem finishAdd_pending (s : PoolState) (mt : MetaTx) :
    (finishAdd s mt).2.pending = s.pending := by
  unfold finishAdd
  split <;> rfl

theorem finishAdd_baseFee (s : PoolState) (mt : MetaTx) :
    (finishAdd s mt).2.baseFee = s.baseFee := by
  unfold finishAdd
  split <;> rfl

theorem finishAdd_queued (s : PoolState) (mt : MetaTx) :
    (finishAdd s mt).2.queued =
      { mt with currentSubPool := SubPoolType.queued } :: s.queued := by
  unfold finishAdd
  split <;> rfl

theorem finishAdd_discardLog (s : PoolState) (mt : MetaTx) :
    (finishAdd s mt).2.discardLog = s.discardLog := by
  unfold finishAdd
  split <;> rfl

/-- C2: with an existing entry M at the same `(senderID, nonce)` key, the
new transaction N replaces M iff both price-bump thresholds (uint64
arithmetic, as in the source) are met; on replacement M leaves its
sub-pool and is discarded `ReplacedByHigherTip` while N enters Queued; on
rejection `addLocked` returns `NotReplaced` with the state unchanged. -/
theorem claim_c2_replacement (s : PoolState) (N M : MetaTx) (priceBump : Nat)
    (hfound : allGet s.all N.tx.senderID N.tx.nonce = some M)
    (hhash : N.tx.idHash ≠ M.tx.idHash)
    (hndP : s.pending.Nodup) (hndB : s.baseFee.Nodup) (hndQ : s.queued.Nodup) :
    ((N.tx.tip < M.tx.tip * ((100 + priceBump) % U64) % U64 / 100 ∨
      N.tx.feeCap < M.tx.feeCap * ((100 + priceBump) % U64) % U64 / 100) →
      addLocked priceBump s N = (.NotReplaced, s)) ∧
    ((M.tx.tip * ((100 + priceBump) % U64) % U64 / 100 ≤ N.tx.tip ∧
      M.tx.feeCap * ((100 + priceBump) % U64) % U64 / 100 ≤ N.tx.feeCap) →
      (addLocked priceBump s N).1 = .NotSet ∧
      (M.currentSubPool = .pending → M ∉ (addLocked priceBump s N).2.pending) ∧
      (M.currentSubPool = .baseFee → M ∉ (addLocked priceBump s N).2.baseFee) ∧
      (M.currentSubPool = .queued → M ∉ (addLocked priceBump s N).2.queued) ∧
      (M.tx.idHash, DiscardReason.ReplacedByHigherTip) ∈ (addLocked priceBump s N).2.discardLog ∧
      { N with currentSubPool := SubPoolType.queued } ∈ (addLocked priceBump s N).2.queued) := by
  have hredacc : ∀ (hacc : M.tx.tip * ((100 + priceBump) % U64) % U64 / 100 ≤ N.tx.tip ∧
      M.tx.feeCap * ((100 + priceBump) % U64) % U64 / 100 ≤ N.tx.feeCap),
      addLocked priceBump s N =
        finishAdd (discardLocked (removeFromSubPool s M).1 (removeFromSubPool s M).2
          .ReplacedByHigherTip) N := by
    intro hacc
    unfold addLocked
    rw [hfound]
    simp only
    rw [if_neg (by omega : ¬(N.tx.tip < M.tx.tip * ((100 + priceBump) % U64) % U64 / 100 ∨
      N.tx.feeCap < M.tx.feeCap * ((100 + priceBump) % U64) % U64 / 100))]
  have hMne : M ≠ { N with currentSubPool := SubPoolType.queued } := by
    intro he
    apply hhash
    rw [he]
  constructor
  · intro hrej
    unfold addLocked
    rw [hfound]
    simp only
    rw [if_pos hrej]
  · intro hacc
    rw [hredacc hacc]
    refine ⟨finishAdd_fst _ _, ?_, ?_, ?_, ?_, ?_⟩
    · intro hM
      rw [finishAdd_pending]
      simp only [discardLocked, removeFromSubPool, hM]
      intro hmem
      exact ((hndP.mem_erase_iff).mp hmem).1 rfl
    · intro hM
      rw [finishAdd_baseFee]
      simp only [discardLocked, removeFromSubPool, hM]
      intro hmem
      exact ((hndB.mem_erase_iff).mp hmem).1 rfl
    · intro hM
      rw [finishAdd_queued]
      simp only [discardLocked, removeFromSubPool, hM]
      intro hmem
      rcases List.mem_cons.mp hmem with he | hmem'
      · exact hMne he
      · exact ((hndQ.mem_erase_iff).mp hmem').1 rfl
    · rw [finishAdd_discardLog]
      cases hM : M.currentSubPool <;>
        simp only [discardLocked, removeFromSubPool, hM] <;>
        exact List.mem_cons_self _ _
    · rw [finishAdd_queued]
      exact List.mem_cons_self _ _

end TxPoolSpec

namespace TxPoolSpec

/-- The senders that appear in a mined-transactions batch (the key set of
`noncesToRemove` in `removeMined`). -/
def minedSenders (mined : List TxSlot) : List Nat :=
  (mined.map (·.senderID)).dedup

/-- The value `noncesToRemove[senderID]` ends at: the highest nonce among
that sender's mined transactions. -/
def maxMinedNonce (mined : List TxSlot) (sid : Nat) : Nat :=
  ((mined.filter (fun t => t.senderID == sid)).map (·.nonce)).foldl max 0

/-- The transactions `BySenderAndNonce.ascend(senderID)` visits, in index
order. -/
def senderTxs (all : List MetaTx) (senderID : Nat) : List MetaTx :=
  all.filter (fun m => m.tx.senderID == senderID)

/-- The value `discard` receives for an element removed from a sub-pool
during a walk: `SubPool.Remove` zeroes `currentSubPool` on the object,
`PendingPool.Remove` does not. -/
def poppedOf (mt : MetaTx) : MetaTx :=
  match mt.currentSubPool with
  | .pending => mt
  | .baseFee => { mt with currentSubPool := .unset }
  | .queued => { mt with currentSubPool := .unset }
  | .unset => mt

/-- One sender's pass of `removeMined`: the ascend callback returns false
at the first nonce above the highest mined nonce (`takeWhile`); each
visited element is removed from its sub-pool during the walk and the
collected `toDel` list is discarded with `Mined` after it. -/
def removeMinedSender (s : PoolState) (sid n : Nat) : PoolState :=
  let toDel := (senderTxs s.all sid).takeWhile (fun m => m.tx.nonce ≤ n)
  let s1 := toDel.foldl (fun st mt => (removeFromSubPool st mt).1) s
  (toDel.map poppedOf).foldl (fun st mt => discardLocked st mt .Mined) s1

/-- `removeMined` from pool.go: compute the highest mined nonce per sender,
then remove every pooled transaction of that sender up to that nonce. -/
def removeMined (s : PoolState) (mined : List TxSlot) : PoolState :=
  (minedSenders mined).foldl (fun st sid => removeMinedSender st sid (maxMinedNonce mined sid)) s

end TxPoolSpec

namespace TxPoolSpec

theorem foldl_removeSub_fields (L : List MetaTx) :
    ∀ (st : PoolState),
    (L.foldl (fun st mt => (removeFromSubPool st mt).1) st).all = st.all ∧
    (L.foldl (fun st mt => (removeFromSubPool st mt).1) st).byHash = st.byHash ∧
    (L.foldl (fun st mt => (removeFromSubPool st mt).1) st).discardLog = st.discardLog ∧
    (L.foldl (fun st mt => (removeFromSubPool st mt).1) st).deletedTxs = st.deletedTxs := by
  induction L with
  | nil => intro st; simp
  | cons mt L' ih =>
    intro st
    simp only [List.foldl_cons]
    have := ih (removeFromSubPool st mt).1
    cases hc : mt.currentSubPool <;>
      simp only [removeFromSubPool, hc] at this ⊢ <;> exact this

theorem foldl_removeSub_pending (L : List MetaTx) :
    ∀ (st : PoolState), st.pending.Nodup →
    (L.foldl (fun st mt => (removeFromSubPool st mt).1) st).pending.Nodup ∧
    (∀ m, m ∈ (L.foldl (fun st mt => (removeFromSubPool st mt).1) st).pending ↔
      m ∈ st.pending ∧ ¬(m ∈ L ∧ m.currentSubPool = .pending)) := by
  induction L with
  | nil =>
    intro st hnd
    refine ⟨hnd, fun m => ?_⟩
    simp
  | cons mt L' ih =>
    intro st hnd
    simp only [List.foldl_cons]
    cases hc : mt.currentSubPool
    case pending =>
      have hstep : (removeFromSubPool st mt).1 = { st with pending := st.pending.erase mt } := by
        simp [removeFromSubPool, hc]
      rw [hstep]
      obtain ⟨ihnd, ihmem⟩ := ih { st with pending := st.pending.erase mt } (hnd.erase mt)
      refine ⟨ihnd, fun m => ?_⟩
      rw [ihmem m]
      simp only [List.Nodup.mem_erase_iff hnd]
      constructor
      · rintro ⟨⟨hne, hmem⟩, h2⟩
        refine ⟨hmem, ?_⟩
        rintro ⟨hm, hcur⟩
        rcases List.mem_cons.mp hm with rfl | hm'
        · exact hne rfl
        · exact h2 ⟨hm', hcur⟩
      · rintro ⟨hmem, h2⟩
        have hne : m ≠ mt := by
          rintro rfl
          exact h2 ⟨List.mem_cons_self _ _, hc⟩
        refine ⟨⟨hne, hmem⟩, ?_⟩
        rintro ⟨hm', hcur⟩
        exact h2 ⟨List.mem_cons_of_mem _ hm', hcur⟩
    all_goals (
      first
      | (have hstep : (removeFromSubPool st mt).1 = st := by simp [removeFromSubPool, hc])
      | (have hstep : (removeFromSubPool st mt).1.pending = st.pending ∧
          (removeFromSubPool st mt).1.pending.Nodup = st.pending.Nodup := by
          simp [removeFromSubPool, hc]))
    case unset =>
      rw [hstep]
      obtain ⟨ihnd, ihmem⟩ := ih st hnd
      refine ⟨ihnd, fun m => ?_⟩
      rw [ihmem m]
      constructor
      · rintro ⟨h1, h2⟩
        refine ⟨h1, ?_⟩
        rintro ⟨hm, hcur⟩
        rcases List.mem_cons.mp hm with rfl | hm'
        · rw [hc] at hcur; cases hcur
        · exact h2 ⟨hm', hcur⟩
      · rintro ⟨h1, h2⟩
        exact ⟨h1, fun ⟨hm', hcur⟩ => h2 ⟨List.mem_cons_of_mem _ hm', hcur⟩⟩
    case baseFee =>
      have hstep2 : (removeFromSubPool st mt).1 = { st with baseFee := st.baseFee.erase mt } := by
        simp [removeFromSubPool, hc]
      rw [hstep2]
      obtain ⟨ihnd, ihmem⟩ := ih { st with baseFee := st.baseFee.erase mt } hnd
      refine ⟨ihnd, fun m => ?_⟩
      rw [ihmem m]
      constructor
      · rintro ⟨h1, h2⟩
        refine ⟨h1, ?_⟩
        rintro ⟨hm, hcur⟩
        rcases List.mem_cons.mp hm with rfl | hm'
        · rw [hc] at hcur; cases hcur
        · exact h2 ⟨hm', hcur⟩
      · rintro ⟨h1, h2⟩
        exact ⟨h1, fun ⟨hm', hcur⟩ => h2 ⟨List.mem_cons_of_mem _ hm', hcur⟩⟩
    case queued =>
      have hstep2 : (removeFromSubPool st mt).1 = { st with queued := st.queued.erase mt } := by
        simp [removeFromSubPool, hc]
      rw [hstep2]
      obtain ⟨ihnd, ihmem⟩ := ih { st with queued := st.queued.erase mt } hnd
      refine ⟨ihnd, fun m => ?_⟩
      rw [ihmem m]
      constructor
      · rintro ⟨h1, h2⟩
        refine ⟨h1, ?_⟩
        rintro ⟨hm, hcur⟩
        rcases List.mem_cons.mp hm with rfl | hm'
        · rw [hc] at hcur; cases hcur
        · exact h2 ⟨hm', hcur⟩
      · rintro ⟨h1, h2⟩
        exact ⟨h1, fun ⟨hm', hcur⟩ => h2 ⟨List.mem_cons_of_mem _ hm', hcur⟩⟩

end TxPoolSpec

namespace TxPoolSpec

theorem foldl_removeSub_baseFee (L : List MetaTx) :
    ∀ (st : PoolState), st.baseFee.Nodup →
    (L.foldl (fun st mt => (removeFromSubPool st mt).1) st).baseFee.Nodup ∧
    (∀ m, m ∈ (L.foldl (fun st mt => (removeFromSubPool st mt).1) st).baseFee ↔
      m ∈ st.baseFee ∧ ¬(m ∈ L ∧ m.currentSubPool = .baseFee)) := by
  induction L with
  | nil =>
    intro st hnd
    refine ⟨hnd, fun m => ?_⟩
    simp
  | cons mt L' ih =>
    intro st hnd
    simp only [List.foldl_cons]
    cases hc : mt.currentSubPool
    case baseFee =>
      have hstep : (removeFromSubPool st mt).1 = { st with baseFee := st.baseFee.erase mt } := by
        simp [removeFromSubPool, hc]
      rw [hstep]
      obtain ⟨ihnd, ihmem⟩ := ih { st with baseFee := st.baseFee.erase mt } (hnd.erase mt)
      refine ⟨ihnd, fun m => ?_⟩
      rw [ihmem m]
      simp only [List.Nodup.mem_erase_iff hnd]
      constructor
      · rintro ⟨⟨hne, hmem⟩, h2⟩
        refine ⟨hmem, ?_⟩
        rintro ⟨hm, hcur⟩
        rcases List.mem_cons.mp hm with rfl | hm'
        · exact hne rfl
        · exact h2 ⟨hm', hcur⟩
      · rintro ⟨hmem, h2⟩
        have hne : m ≠ mt := by
          rintro rfl
          exact h2 ⟨List.mem_cons_self _ _, hc⟩
        refine ⟨⟨hne, hmem⟩, ?_⟩
        rintro ⟨hm', hcur⟩
        exact h2 ⟨List.mem_cons_of_mem _ hm', hcur⟩
    case unset =>
      have hstep : (removeFromSubPool st mt).1 = st := by simp [removeFromSubPool, hc]
      rw [hstep]
      obtain ⟨ihnd, ihmem⟩ := ih st hnd
      refine ⟨ihnd, fun m => ?_⟩
      rw [ihmem m]
      constructor
      · rintro ⟨h1, h2⟩
        refine ⟨h1, ?_⟩
        rintro ⟨hm, hcur⟩
        rcases List.mem_cons.mp hm with rfl | hm'
        · rw [hc] at hcur; cases hcur
        · exact h2 ⟨hm', hcur⟩
      · rintro ⟨h1, h2⟩
        exact ⟨h1, fun ⟨hm', hcur⟩ => h2 ⟨List.mem_cons_of_mem _ hm', hcur⟩⟩
    case pending =>
      have hstep : (removeFromSubPool st mt).1 = { st with pending := st.pending.erase mt } := by
        simp [removeFromSubPool, hc]
      rw [hstep]
      obtain ⟨ihnd, ihmem⟩ := ih { st with pending := st.pending.erase mt } hnd
      refine ⟨ihnd, fun m => ?_⟩
      rw [ihmem m]
      constructor
      · rintro ⟨h1, h2⟩
        refine ⟨h1, ?_⟩
        rintro ⟨hm, hcur⟩
        rcases List.mem_cons.mp hm with rfl | hm'
        · rw [hc] at hcur; cases hcur
        · exact h2 ⟨hm', hcur⟩
      · rintro ⟨h1, h2⟩
        exact ⟨h1, fun ⟨hm', hcur⟩ => h2 ⟨List.mem_cons_of_mem _ hm', hcur⟩⟩
    case queued =>
      have hstep : (removeFromSubPool st mt).1 = { st with queued := st.queued.erase mt } := by
        simp [removeFromSubPool, hc]
      rw [hstep]
      obtain ⟨ihnd, ihmem⟩ := ih { st with queued := st.queued.erase mt } hnd
      refine ⟨ihnd, fun m => ?_⟩
      rw [ihmem m]
      constructor
      · rintro ⟨h1, h2⟩
        refine ⟨h1, ?_⟩
        rintro ⟨hm, hcur⟩
        rcases List.mem_cons.mp hm with rfl | hm'
        · rw [hc] at hcur; cases hcur
        · exact h2 ⟨hm', hcur⟩
      · rintro ⟨h1, h2⟩
        exact ⟨h1, fun ⟨hm', hcur⟩ => h2 ⟨List.mem_cons_of_mem _ hm', hcur⟩⟩

theorem foldl_removeSub_queued (L : List MetaTx) :
    ∀ (st : PoolState), st.queued.Nodup →
    (L.foldl (fun st mt => (removeFromSubPool st mt).1) st).queued.Nodup ∧
    (∀ m, m ∈ (L.foldl (fun st mt => (removeFromSubPool st mt).1) st).queued ↔
      m ∈ st.queued ∧ ¬(m ∈ L ∧ m.currentSubPool = .queued)) := by
  induction L with
  | nil =>
    intro st hnd
    refine ⟨hnd, fun m => ?_⟩
    simp
  | cons mt L' ih =>
    intro st hnd
    simp only [List.foldl_cons]
    cases hc : mt.currentSubPool
    case queued =>
      have hstep : (removeFromSubPool st mt).1 = { st with queued := st.queued.erase mt } := by
        simp [removeFromSubPool, hc]
      rw [hstep]
      obtain ⟨ihnd, ihmem⟩ := ih { st with queued := st.queued.erase mt } (hnd.erase mt)
      refine ⟨ihnd, fun m => ?_⟩
      rw [ihmem m]
      simp only [List.Nodup.mem_erase_iff hnd]
      constructor
      · rintro ⟨⟨hne, hmem⟩, h2⟩
        refine ⟨hmem, ?_⟩
        rintro ⟨hm, hcur⟩
        rcases List.mem_cons.mp hm with rfl | hm'
        · exact hne rfl
        · exact h2 ⟨hm', hcur⟩
      · rintro ⟨hmem, h2⟩
        have hne : m ≠ mt := by
          rintro rfl
          exact h2 ⟨List.mem_cons_self _ _, hc⟩
        refine ⟨⟨hne, hmem⟩, ?_⟩
        rintro ⟨hm', hcur⟩
        exact h2 ⟨List.mem_cons_of_mem _ hm', hcur⟩
    case unset =>
      have hstep : (removeFromSubPool st mt).1 = st := by simp [removeFromSubPool, hc]
      rw [hstep]
      obtain ⟨ihnd, ihmem⟩ := ih st hnd
      refine ⟨ihnd, fun m => ?_⟩
      rw [ihmem m]
      constructor
      · rintro ⟨h1, h2⟩
        refine ⟨h1, ?_⟩
        rintro ⟨hm, hcur⟩
        rcases List.mem_cons.mp hm with rfl | hm'
        · rw [hc] at hcur; cases hcur
        · exact h2 ⟨hm', hcur⟩
      · rintro ⟨h1, h2⟩
        exact ⟨h1, fun ⟨hm', hcur⟩ => h2 ⟨List.mem_cons_of_mem _ hm', hcur⟩⟩
    case pending =>
      have hstep : (removeFromSubPool st mt).1 = { st with pending := st.pending.erase mt } := by
        simp [removeFromSubPool, hc]
      rw [hstep]
      obtain ⟨ihnd, ihmem⟩ := ih { st with pending := st.pending.erase mt } hnd
      refine ⟨ihnd, fun m => ?_⟩
      rw [ihmem m]
      constructor
      · rintro ⟨h1, h2⟩
        refine ⟨h1, ?_⟩
        rintro ⟨hm, hcur⟩
        rcases List.mem_cons.mp hm with rfl | hm'
        · rw [hc] at hcur; cases hcur
        · exact h2 ⟨hm', hcur⟩
      · rintro ⟨h1, h2⟩
        exact ⟨h1, fun ⟨hm', hcur⟩ => h2 ⟨List.mem_cons_of_mem _ hm', hcur⟩⟩
    case baseFee =>
      have hstep : (removeFromSubPool st mt).1 = { st with baseFee := st.baseFee.erase mt } := by
        simp [removeFromSubPool, hc]
      rw [hstep]
      obtain ⟨ihnd, ihmem⟩ := ih { st with baseFee := st.baseFee.erase mt } hnd
      refine ⟨ihnd, fun m => ?_⟩
      rw [ihmem m]
      constructor
      · rintro ⟨h1, h2⟩
        refine ⟨h1, ?_⟩
        rintro ⟨hm, hcur⟩
        rcases List.mem_cons.mp hm with rfl | hm'
        · rw [hc] at hcur; cases hcur
        · exact h2 ⟨hm', hcur⟩
      · rintro ⟨h1, h2⟩
        exact ⟨h1, fun ⟨hm', hcur⟩ => h2 ⟨List.mem_cons_of_mem _ hm', hcur⟩⟩

end TxPoolSpec

namespace TxPoolSpec

theorem foldl_discard_spec (D : List MetaTx) (r : DiscardReason) :
    ∀ (st : PoolState),
    (D.foldl (fun st mt => discardLocked st mt r) st).pending = st.pending ∧
    (D.foldl (fun st mt => discardLocked st mt r) st).baseFee = st.baseFee ∧
    (D.foldl (fun st mt => discardLocked st mt r) st).queued = st.queued ∧
    (∀ m, m ∈ (D.foldl (fun st mt => discardLocked st mt r) st).all ↔
      m ∈ st.all ∧ ∀ d ∈ D, sameKey m d = false) ∧
    (∀ p, p ∈ (D.foldl (fun st mt => discardLocked st mt r) st).byHash ↔
      p ∈ st.byHash ∧ ∀ d ∈ D, p.1 ≠ d.tx.idHash) ∧
    (∀ e, e ∈ (D.foldl (fun st mt => discardLocked st mt r) st).discardLog ↔
      e ∈ st.discardLog ∨ ∃ d ∈ D, e = (d.tx.idHash, r)) := by
  induction D with
  | nil =>
    intro st
    simp
  | cons mt D' ih =>
    intro st
    simp only [List.foldl_cons]
    obtain ⟨e1, e2, e3, hall, hby, hlog⟩ := ih (discardLocked st mt r)
    refine ⟨e1, e2, e3, fun m => ?_, fun p => ?_, fun e => ?_⟩
    · rw [hall m]
      simp only [discardLocked, allDelete, List.mem_filter, Bool.not_eq_true',
        Bool.not_eq_eq_eq_not, Bool.not_true]
      constructor
      · rintro ⟨⟨h1, h2⟩, h3⟩
        refine ⟨h1, ?_⟩
        intro d hd
        rcases List.mem_cons.mp hd with rfl | hd'
        · exact h2
        · exact h3 d hd'
      · rintro ⟨h1, h2⟩
        exact ⟨⟨h1, h2 mt (List.mem_cons_self _ _)⟩,
          fun d hd => h2 d (List.mem_cons_of_mem _ hd)⟩
    · rw [hby p]
      simp only [discardLocked, List.mem_filter, bne_iff_ne, ne_eq]
      constructor
      · rintro ⟨⟨h1, h2⟩, h3⟩
        refine ⟨h1, ?_⟩
        intro d hd
        rcases List.mem_cons.mp hd with rfl | hd'
        · exact h2
        · exact h3 d hd'
      · rintro ⟨h1, h2⟩
        exact ⟨⟨h1, h2 mt (List.mem_cons_self _ _)⟩,
          fun d hd => h2 d (List.mem_cons_of_mem _ hd)⟩
    · rw [hlog e]
      have hd1 : (discardLocked st mt r).discardLog = (mt.tx.idHash, r) :: st.discardLog := rfl
      rw [hd1]
      constructor
      · rintro (he | he)
        · rcases List.mem_cons.mp he with he' | he'
          · exact Or.inr ⟨mt, List.mem_cons_self _ _, he'⟩
          · exact Or.inl he'
        · obtain ⟨d, hd, hde⟩ := he
          exact Or.inr ⟨d, List.mem_cons_of_mem _ hd, hde⟩
      · rintro (he | ⟨d, hd, hde⟩)
        · exact Or.inl (List.mem_cons_of_mem _ he)
        · rcases List.mem_cons.mp hd with rfl | hd'
          · rw [hde]
            exact Or.inl (List.mem_cons_self _ _)
          · exact Or.inr ⟨d, hd', hde⟩

end TxPoolSpec

namespace TxPoolSpec

theorem poppedOf_tx (mt : MetaTx) : (poppedOf mt).tx = mt.tx := by
  unfold poppedOf
  cases mt.currentSubPool <;> rfl

theorem takeWhile_eq_filter_nonce {l : List MetaTx} (n : Nat)
    (hs : l.Pairwise (fun a b => a.tx.nonce < b.tx.nonce)) :
    l.takeWhile (fun m => m.tx.nonce ≤ n) = l.filter (fun m => m.tx.nonce ≤ n) := by
  induction l with
  | nil => rfl
  | cons a t ih =>
    rcases List.pairwise_cons.mp hs with ⟨ha, ht⟩
    by_cases h : a.tx.nonce ≤ n
    · simp only [List.takeWhile_cons, List.filter_cons, decide_eq_true h, if_true, ih ht]
    · simp only [List.takeWhile_cons, List.filter_cons, decide_eq_false h, if_false,
        Bool.false_eq_true]
      rw [List.filter_eq_nil.mpr]
      intro x hx
      simp only [decide_eq_true_eq]
      have := ha x hx
      omega

theorem senderTxs_sorted {all : List MetaTx} (sid : Nat)
    (hs : all.Pairwise (fun a b => keyLt a b = true)) :
    (senderTxs all sid).Pairwise (fun a b => a.tx.nonce < b.tx.nonce) := by
  unfold senderTxs
  refine List.Pairwise.imp_of_mem ?_ (hs.filter _)
  intro a b ha hb hk
  have ha' : a.tx.senderID = sid := by simpa using (List.mem_filter.mp ha).2
  have hb' : b.tx.senderID = sid := by simpa using (List.mem_filter.mp hb).2
  unfold keyLt at hk
  rw [ha', hb'] at hk
  simp only [lt_self_iff_false, decide_eq_true_eq] at hk
  rcases Bool.or_eq_true_iff.mp hk with h | h
  · exact (of_decide_eq_true h).elim
  · exact of_decide_eq_true (Bool.and_eq_true_iff.mp h).2

theorem toDel_mem {all : List MetaTx} {sid n : Nat}
    (hs : all.Pairwise (fun a b => keyLt a b = true)) (m : MetaTx) :
    m ∈ (senderTxs all sid).takeWhile (fun m => m.tx.nonce ≤ n) ↔
      m ∈ all ∧ m.tx.senderID = sid ∧ m.tx.nonce ≤ n := by
  rw [takeWhile_eq_filter_nonce n (senderTxs_sorted sid hs)]
  unfold senderTxs
  simp only [List.mem_filter, decide_eq_true_eq, beq_iff_eq, and_assoc]

theorem foldl_discard_all_sublist (D : List MetaTx) (r : DiscardReason) :
    ∀ (st : PoolState),
    (D.foldl (fun st mt => discardLocked st mt r) st).all.Sublist st.all := by
  induction D with
  | nil => intro st; exact List.Sublist.refl _
  | cons mt D' ih =>
    intro st
    simp only [List.foldl_cons]
    exact (ih (discardLocked st mt r)).trans (List.filter_sublist _)

/-- The global pool invariants threaded through `removeMined`: the index
is key-sorted; every sub-pool element is in the index with a matching
`currentSubPool`; every `byHash` entry points to an index element under
its own hash; the sub-pools carry no duplicates. -/
def INV (st : PoolState) : Prop :=
  st.all.Pairwise (fun a b => keyLt a b = true) ∧
  (∀ m ∈ st.pending, m ∈ st.all ∧ m.currentSubPool = .pending) ∧
  (∀ m ∈ st.baseFee, m ∈ st.all ∧ m.currentSubPool = .baseFee) ∧
  (∀ m ∈ st.queued, m ∈ st.all ∧ m.currentSubPool = .queued) ∧
  (∀ p ∈ st.byHash, p.2 ∈ st.all ∧ p.1 = p.2.tx.idHash) ∧
  st.pending.Nodup ∧ st.baseFee.Nodup ∧ st.queued.Nodup

end TxPoolSpec

namespace TxPoolSpec

theorem removeMinedSender_spec (st : PoolState) (sid n : Nat) (hinv : INV st) :
    INV (removeMinedSender st sid n) ∧
    (∀ m, m ∈ (removeMinedSender st sid n).all ↔
      m ∈ st.all ∧ ¬(m.tx.senderID = sid ∧ m.tx.nonce ≤ n)) ∧
    (∀ m, m ∈ (removeMinedSender st sid n).pending ↔
      m ∈ st.pending ∧ ¬(m.tx.senderID = sid ∧ m.tx.nonce ≤ n)) ∧
    (∀ m, m ∈ (removeMinedSender st sid n).baseFee ↔
      m ∈ st.baseFee ∧ ¬(m.tx.senderID = sid ∧ m.tx.nonce ≤ n)) ∧
    (∀ m, m ∈ (removeMinedSender st sid n).queued ↔
      m ∈ st.queued ∧ ¬(m.tx.senderID = sid ∧ m.tx.nonce ≤ n)) ∧
    (∀ m ∈ st.all, m.tx.senderID = sid ∧ m.tx.nonce ≤ n →
      (m.tx.idHash, DiscardReason.Mined) ∈ (removeMinedSender st sid n).discardLog) ∧
    (∀ e ∈ st.discardLog, e ∈ (removeMinedSender st sid n).discardLog) := by
  obtain ⟨hsort, hP, hB, hQ, hH, hndP, hndB, hndQ⟩ := hinv
  unfold removeMinedSender
  set L := (senderTxs st.all sid).takeWhile (fun m => m.tx.nonce ≤ n) with hL
  set s1 := L.foldl (fun st mt => (removeFromSubPool st mt).1) st with hs1
  set D := L.map poppedOf with hD
  obtain ⟨fAll, fBy, fLog, fDel⟩ := foldl_removeSub_fields L st
  obtain ⟨rndP, rmemP⟩ := foldl_removeSub_pending L st hndP
  obtain ⟨rndB, rmemB⟩ := foldl_removeSub_baseFee L st hndB
  obtain ⟨rndQ, rmemQ⟩ := foldl_removeSub_queued L st hndQ
  obtain ⟨dP, dB, dQ, dAll, dBy, dLog⟩ := foldl_discard_spec D .Mined s1
  have hLmem : ∀ m, m ∈ L ↔ m ∈ st.all ∧ m.tx.senderID = sid ∧ m.tx.nonce ≤ n :=
    fun m => toDel_mem hsort m
  -- membership in the index after the pass
  have hAll : ∀ m, m ∈ (D.foldl (fun st mt => discardLocked st mt .Mined) s1).all ↔
      m ∈ st.all ∧ ¬(m.tx.senderID = sid ∧ m.tx.nonce ≤ n) := by
    intro m
    rw [dAll m, fAll]
    constructor
    · rintro ⟨h1, h2⟩
      refine ⟨h1, ?_⟩
      rintro ⟨hsid, hn⟩
      have hmL : m ∈ L := (hLmem m).mpr ⟨h1, hsid, hn⟩
      have : sameKey m (poppedOf m) = false :=
        h2 (poppedOf m) (List.mem_map.mpr ⟨m, hmL, rfl⟩)
      rw [sameKey, poppedOf_tx] at this
      simp at this
    · rintro ⟨h1, h2⟩
      refine ⟨h1, ?_⟩
      intro d hd
      obtain ⟨x, hxL, rfl⟩ := List.mem_map.mp hd
      obtain ⟨hxall, hxsid, hxn⟩ := (hLmem x).mp hxL
      rw [sameKey, poppedOf_tx]
      by_contra hkey
      rw [Bool.not_eq_false, Bool.and_eq_true_iff] at hkey
      have e1 : m.tx.senderID = x.tx.senderID := by simpa using hkey.1
      have e2 : m.tx.nonce = x.tx.nonce := by simpa using hkey.2
      exact h2 ⟨e1.trans hxsid, e2 ▸ hxn⟩
  have hPend : ∀ m, m ∈ (D.foldl (fun st mt => discardLocked st mt .Mined) s1).pending ↔
      m ∈ st.pending ∧ ¬(m.tx.senderID = sid ∧ m.tx.nonce ≤ n) := by
    intro m
    rw [dP, rmemP m]
    constructor
    · rintro ⟨h1, h2⟩
      refine ⟨h1, ?_⟩
      rintro ⟨hsid, hn⟩
      obtain ⟨hall, hcur⟩ := hP m h1
      exact h2 ⟨(hLmem m).mpr ⟨hall, hsid, hn⟩, hcur⟩
    · rintro ⟨h1, h2⟩
      refine ⟨h1, ?_⟩
      rintro ⟨hmL, _⟩
      obtain ⟨_, hsid, hn⟩ := (hLmem m).mp hmL
      exact h2 ⟨hsid, hn⟩
  have hBase : ∀ m, m ∈ (D.foldl (fun st mt => discardLocked st mt .Mined) s1).baseFee ↔
      m ∈ st.baseFee ∧ ¬(m.tx.senderID = sid ∧ m.tx.nonce ≤ n) := by
    intro m
    rw [dB, rmemB m]
    constructor
    · rintro ⟨h1, h2⟩
      refine ⟨h1, ?_⟩
      rintro ⟨hsid, hn⟩
      obtain ⟨hall, hcur⟩ := hB m h1
      exact h2 ⟨(hLmem m).mpr ⟨hall, hsid, hn⟩, hcur⟩
    · rintro ⟨h1, h2⟩
      refine ⟨h1, ?_⟩
      rintro ⟨hmL, _⟩
      obtain ⟨_, hsid, hn⟩ := (hLmem m).mp hmL
      exact h2 ⟨hsid, hn⟩
  have hQue : ∀ m, m ∈ (D.foldl (fun st mt => discardLocked st mt .Mined) s1).queued ↔
      m ∈ st.queued ∧ ¬(m.tx.senderID = sid ∧ m.tx.nonce ≤ n) := by
    intro m
    rw [dQ, rmemQ m]
    constructor
    · rintro ⟨h1, h2⟩
      refine ⟨h1, ?_⟩
      rintro ⟨hsid, hn⟩
      obtain ⟨hall, hcur⟩ := hQ m h1
      exact h2 ⟨(hLmem m).mpr ⟨hall, hsid, hn⟩, hcur⟩
    · rintro ⟨h1, h2⟩
      refine ⟨h1, ?_⟩
      rintro ⟨hmL, _⟩
      obtain ⟨_, hsid, hn⟩ := (hLmem m).mp hmL
      exact h2 ⟨hsid, hn⟩
  refine ⟨⟨?_, ?_, ?_, ?_, ?_, ?_, ?_, ?_⟩, hAll, hPend, hBase, hQue, ?_, ?_⟩
  · exact hsort.sublist ((foldl_discard_all_sublist D .Mined s1).trans (by rw [fAll]))
  · intro m hm
    obtain ⟨h1, h2⟩ := (hPend m).mp hm
    obtain ⟨hall, hcur⟩ := hP m h1
    exact ⟨(hAll m).mpr ⟨hall, h2⟩, hcur⟩
  · intro m hm
    obtain ⟨h1, h2⟩ := (hBase m).mp hm
    obtain ⟨hall, hcur⟩ := hB m h1
    exact ⟨(hAll m).mpr ⟨hall, h2⟩, hcur⟩
  · intro m hm
    obtain ⟨h1, h2⟩ := (hQue m).mp hm
    obtain ⟨hall, hcur⟩ := hQ m h1
    exact ⟨(hAll m).mpr ⟨hall, h2⟩, hcur⟩
  · intro p hp
    obtain ⟨hp1, hp2⟩ := (dBy p).mp hp
    rw [fBy] at hp1
    obtain ⟨hall, hkey⟩ := hH p hp1
    refine ⟨(hAll p.2).mpr ⟨hall, ?_⟩, hkey⟩
    rintro ⟨hsid, hn⟩
    have hmL : p.2 ∈ L := (hLmem p.2).mpr ⟨hall, hsid, hn⟩
    exact hp2 (poppedOf p.2) (List.mem_map.mpr ⟨p.2, hmL, rfl⟩) (by rw [poppedOf_tx, hkey])
  · rw [dP]; exact rndP
  · rw [dB]; exact rndB
  · rw [dQ]; exact rndQ
  · intro m hmall hbad
    rw [dLog]
    right
    refine ⟨poppedOf m, List.mem_map.mpr ⟨m, (hLmem m).mpr ⟨hmall, hbad.1, hbad.2⟩, rfl⟩, ?_⟩
    rw [poppedOf_tx]
  · intro e he
    rw [dLog]
    left
    rw [fLog]
    exact he

end TxPoolSpec

namespace TxPoolSpec

theorem foldl_max_ge_mem (l : List Nat) : ∀ (a : Nat), a ≤ l.foldl max a ∧
    ∀ x ∈ l, x ≤ l.foldl max a := by
  induction l with
  | nil => intro a; simp
  | cons b t ih =>
    intro a
    simp only [List.foldl_cons]
    obtain ⟨h1, h2⟩ := ih (max a b)
    refine ⟨le_trans (le_max_left a b) h1, fun x hx => ?_⟩
    rcases List.mem_cons.mp hx with rfl | hx'
    · exact le_trans (le_max_right a x) h1
    · exact h2 x hx'

theorem foldl_max_self_or_mem (l : List Nat) : ∀ (a : Nat),
    l.foldl max a = a ∨ l.foldl max a ∈ l := by
  induction l with
  | nil => intro a; left; rfl
  | cons b t ih =>
    intro a
    simp only [List.foldl_cons]
    rcases ih (max a b) with h | h
    · rw [h]
      rcases max_choice a b with hm | hm <;> rw [hm]
      · left; rfl
      · right; exact List.mem_cons_self _ _
    · right; exact List.mem_cons_of_mem _ h

theorem le_maxMinedNonce {mined : List TxSlot} {t : TxSlot} (ht : t ∈ mined) :
    t.nonce ≤ maxMinedNonce mined t.senderID := by
  unfold maxMinedNonce
  refine (foldl_max_ge_mem _ 0).2 t.nonce ?_
  exact List.mem_map.mpr ⟨t, List.mem_filter.mpr ⟨ht, by simp⟩, rfl⟩

theorem mem_minedSenders {mined : List TxSlot} {t : TxSlot} (ht : t ∈ mined) :
    t.senderID ∈ minedSenders mined :=
  List.mem_dedup.mpr (List.mem_map.mpr ⟨t, ht, rfl⟩)

theorem foldl_max_zero_mem {l : List Nat} (h : l ≠ []) : l.foldl max 0 ∈ l := by
  cases l with
  | nil => exact absurd rfl h
  | cons x xs =>
    have hz : (x :: xs).foldl max 0 = xs.foldl max x := by
      simp only [List.foldl_cons, Nat.zero_max]
    rw [hz]
    rcases foldl_max_self_or_mem xs x with h' | h'
    · rw [h']; exact List.mem_cons_self _ _
    · exact List.mem_cons_of_mem _ h'

theorem maxMinedNonce_mem {mined : List TxSlot} {sid : Nat}
    (h : sid ∈ minedSenders mined) :
    ∃ t ∈ mined, t.senderID = sid ∧ t.nonce = maxMinedNonce mined sid := by
  obtain ⟨t0, ht0, hsid⟩ := List.mem_map.mp (List.mem_dedup.mp h)
  have hne : (mined.filter (fun t => t.senderID == sid)).map (·.nonce) ≠ [] := by
    simp only [ne_eq, List.map_eq_nil, List.filter_eq_nil]
    push_neg
    exact ⟨t0, ht0, by simp [hsid]⟩
  have hmem : maxMinedNonce mined sid ∈
      (mined.filter (fun t => t.senderID == sid)).map (·.nonce) :=
    foldl_max_zero_mem hne
  obtain ⟨t, htf, htn⟩ := List.mem_map.mp hmem
  obtain ⟨htm, hts⟩ := List.mem_filter.mp htf
  exact ⟨t, htm, by simpa using hts, htn⟩

theorem removeMined_fold (mined : List TxSlot) (sids : List Nat) :
    ∀ (st : PoolState), INV st →
    INV (sids.foldl (fun st sid => removeMinedSender st sid (maxMinedNonce mined sid)) st) ∧
    (∀ m, m ∈ (sids.foldl (fun st sid => removeMinedSender st sid (maxMinedNonce mined sid)) st).all ↔
      m ∈ st.all ∧ ∀ sid ∈ sids, ¬(m.tx.senderID = sid ∧ m.tx.nonce ≤ maxMinedNonce mined sid)) ∧
    (∀ m, m ∈ (sids.foldl (fun st sid => removeMinedSender st sid (maxMinedNonce mined sid)) st).pending ↔
      m ∈ st.pending ∧ ∀ sid ∈ sids, ¬(m.tx.senderID = sid ∧ m.tx.nonce ≤ maxMinedNonce mined sid)) ∧
    (∀ m, m ∈ (sids.foldl (fun st sid => removeMinedSender st sid (maxMinedNonce mined sid)) st).baseFee ↔
      m ∈ st.baseFee ∧ ∀ sid ∈ sids, ¬(m.tx.senderID = sid ∧ m.tx.nonce ≤ maxMinedNonce mined sid)) ∧
    (∀ m, m ∈ (sids.foldl (fun st sid => removeMinedSender st sid (maxMinedNonce mined sid)) st).queued ↔
      m ∈ st.queued ∧ ∀ sid ∈ sids, ¬(m.tx.senderID = sid ∧ m.tx.nonce ≤ maxMinedNonce mined sid)) ∧
    (∀ m ∈ st.all, ∀ sid ∈ sids, (m.tx.senderID = sid ∧ m.tx.nonce ≤ maxMinedNonce mined sid) →
      (m.tx.idHash, DiscardReason.Mined) ∈
        (sids.foldl (fun st sid => removeMinedSender st sid (maxMinedNonce mined sid)) st).discardLog) ∧
    (∀ e ∈ st.discardLog, e ∈
      (sids.foldl (fun st sid => removeMinedSender st sid (maxMinedNonce mined sid)) st).discardLog) := by
  induction sids with
  | nil =>
    intro st hinv
    refine ⟨hinv, ?_, ?_, ?_, ?_, ?_, ?_⟩ <;> simp
  | cons sid rest ih =>
    intro st hinv
    simp only [List.foldl_cons]
    obtain ⟨sInv, sAll, sPend, sBase, sQue, sLog, sMono⟩ :=
      removeMinedSender_spec st sid (maxMinedNonce mined sid) hinv
    obtain ⟨iInv, iAll, iPend, iBase, iQue, iLog, iMono⟩ :=
      ih (removeMinedSender st sid (maxMinedNonce mined sid)) sInv
    have combine : ∀ (P₁ P₂ : MetaTx → Prop),
        (∀ m, P₂ m ↔ (P₁ m ∧ ¬(m.tx.senderID = sid ∧ m.tx.nonce ≤ maxMinedNonce mined sid))) →
        ∀ m, (P₂ m ∧ ∀ s' ∈ rest, ¬(m.tx.senderID = s' ∧ m.tx.nonce ≤ maxMinedNonce mined s')) ↔
          (P₁ m ∧ ∀ s' ∈ sid :: rest, ¬(m.tx.senderID = s' ∧ m.tx.nonce ≤ maxMinedNonce mined s')) := by
      intro P₁ P₂ hPQ m
      rw [hPQ m]
      constructor
      · rintro ⟨⟨h1, h2⟩, h3⟩
        refine ⟨h1, fun s' hs' => ?_⟩
        rcases List.mem_cons.mp hs' with rfl | hs''
        · exact h2
        · exact h3 s' hs''
      · rintro ⟨h1, h2⟩
        exact ⟨⟨h1, h2 sid (List.mem_cons_self _ _)⟩,
          fun s' hs' => h2 s' (List.mem_cons_of_mem _ hs')⟩
    refine ⟨iInv, ?_, ?_, ?_, ?_, ?_, ?_⟩
    · intro m
      rw [iAll m]
      exact combine (fun m => m ∈ st.all) _ sAll m
    · intro m
      rw [iPend m]
      exact combine (fun m => m ∈ st.pending) _ sPend m
    · intro m
      rw [iBase m]
      exact combine (fun m => m ∈ st.baseFee) _ sBase m
    · intro m
      rw [iQue m]
      exact combine (fun m => m ∈ st.queued) _ sQue m
    · intro m hmall s' hs' hbad
      rcases List.mem_cons.mp hs' with rfl | hs''
      · exact iMono _ (sLog m hmall hbad)
      · by_cases hb0 : m.tx.senderID = sid ∧ m.tx.nonce ≤ maxMinedNonce mined sid
        · exact iMono _ (sLog m hmall hb0)
        · exact iLog m ((sAll m).mpr ⟨hmall, hb0⟩) s' hs'' hbad
    · intro e he
      exact iMono e (sMono e he)

end TxPoolSpec

namespace TxPoolSpec

/-- C3: after `removeMined`, no `metaTx` whose sender matches a mined
transaction and whose nonce is at most that sender's highest mined nonce
remains in the index, any sub-pool, or `byHash`; every such `metaTx` of
the prior state is discarded with reason `Mined`; transactions of those
senders with higher nonces (and all other senders) are untouched. -/
theorem claim_c3_remove_mined (s : PoolState) (mined : List TxSlot) (hinv : INV s) :
    (∀ m ∈ (removeMined s mined).all, ∀ t ∈ mined,
      ¬(m.tx.senderID = t.senderID ∧ m.tx.nonce ≤ t.nonce)) ∧
    (∀ m ∈ (removeMined s mined).pending, ∀ t ∈ mined,
      ¬(m.tx.senderID = t.senderID ∧ m.tx.nonce ≤ t.nonce)) ∧
    (∀ m ∈ (removeMined s mined).baseFee, ∀ t ∈ mined,
      ¬(m.tx.senderID = t.senderID ∧ m.tx.nonce ≤ t.nonce)) ∧
    (∀ m ∈ (removeMined s mined).queued, ∀ t ∈ mined,
      ¬(m.tx.senderID = t.senderID ∧ m.tx.nonce ≤ t.nonce)) ∧
    (∀ p ∈ (removeMined s mined).byHash, ∀ t ∈ mined,
      ¬(p.2.tx.senderID = t.senderID ∧ p.2.tx.nonce ≤ t.nonce)) ∧
    (∀ m ∈ s.all, (∃ t ∈ mined, m.tx.senderID = t.senderID ∧ m.tx.nonce ≤ t.nonce) →
      (m.tx.idHash, DiscardReason.Mined) ∈ (removeMined s mined).discardLog) ∧
    (∀ m ∈ s.all, (∀ t ∈ mined, ¬(m.tx.senderID = t.senderID ∧ m.tx.nonce ≤ t.nonce)) →
      m ∈ (removeMined s mined).all) ∧
    (∀ m ∈ s.pending, (∀ t ∈ mined, ¬(m.tx.senderID = t.senderID ∧ m.tx.nonce ≤ t.nonce)) →
      m ∈ (removeMined s mined).pending) ∧
    (∀ m ∈ s.baseFee, (∀ t ∈ mined, ¬(m.tx.senderID = t.senderID ∧ m.tx.nonce ≤ t.nonce)) →
      m ∈ (removeMined s mined).baseFee) ∧
    (∀ m ∈ s.queued, (∀ t ∈ mined, ¬(m.tx.senderID = t.senderID ∧ m.tx.nonce ≤ t.nonce)) →
      m ∈ (removeMined s mined).queued) := by
  obtain ⟨fInv, fAll, fPend, fBase, fQue, fLog, fMono⟩ :=
    removeMined_fold mined (minedSenders mined) s hinv
  have bad_of_t : ∀ (m : MetaTx), ∀ t ∈ mined, t.senderID = m.tx.senderID →
      m.tx.nonce ≤ t.nonce →
      m.tx.senderID ∈ minedSenders mined ∧
        (m.tx.senderID = m.tx.senderID ∧ m.tx.nonce ≤ maxMinedNonce mined m.tx.senderID) := by
    intro m t ht hts htn
    refine ⟨hts ▸ mem_minedSenders ht, rfl, ?_⟩
    calc m.tx.nonce ≤ t.nonce := htn
      _ ≤ maxMinedNonce mined t.senderID := le_maxMinedNonce ht
      _ = maxMinedNonce mined m.tx.senderID := by rw [hts]
  have notbad_of_nott : ∀ (m : MetaTx),
      (∀ t ∈ mined, ¬(m.tx.senderID = t.senderID ∧ m.tx.nonce ≤ t.nonce)) →
      ∀ sid ∈ minedSenders mined,
        ¬(m.tx.senderID = sid ∧ m.tx.nonce ≤ maxMinedNonce mined sid) := by
    intro m hno sid hsid
    rintro ⟨hms, hmn⟩
    obtain ⟨t, htm, hts, htn⟩ := maxMinedNonce_mem hsid
    exact hno t htm ⟨hms.trans hts.symm, htn ▸ hmn⟩
  have hclean : ∀ (m : MetaTx),
      (∀ sid ∈ minedSenders mined,
        ¬(m.tx.senderID = sid ∧ m.tx.nonce ≤ maxMinedNonce mined sid)) →
      ∀ t ∈ mined, ¬(m.tx.senderID = t.senderID ∧ m.tx.nonce ≤ t.nonce) := by
    intro m hall t ht
    rintro ⟨hts, htn⟩
    obtain ⟨hsid, hbad⟩ := bad_of_t m t ht hts.symm htn
    exact hall _ hsid hbad
  refine ⟨?_, ?_, ?_, ?_, ?_, ?_, ?_, ?_, ?_, ?_⟩
  · intro m hm
    exact hclean m ((fAll m).mp hm).2
  · intro m hm
    exact hclean m ((fPend m).mp hm).2
  · intro m hm
    exact hclean m ((fBase m).mp hm).2
  · intro m hm
    exact hclean m ((fQue m).mp hm).2
  · intro p hp
    obtain ⟨_, _, _, _, hH', _⟩ := fInv
    exact hclean p.2 ((fAll p.2).mp (hH' p hp).1).2
  · rintro m hmall ⟨t, htm, hts, htn⟩
    obtain ⟨hsid, hbad⟩ := bad_of_t m t htm hts.symm htn
    exact fLog m hmall _ hsid hbad
  · intro m hmall hno
    exact (fAll m).mpr ⟨hmall, notbad_of_nott m hno⟩
  · intro m hmp hno
    exact (fPend m).mpr ⟨hmp, notbad_of_nott m hno⟩
  · intro m hmp hno
    exact (fBase m).mpr ⟨hmp, notbad_of_nott m hno⟩
  · intro m hmp hno
    exact (fQue m).mpr ⟨hmp, notbad_of_nott m hno⟩

end TxPoolSpec

namespace TxPoolSpec

/-- A candidate replacement transaction for the witness: same
`(senderID, nonce)` key as `txSampleA`, bumped tip and fee cap, new hash. -/
def txSampleN : TxSlot :=
  { senderID := 1, nonce := 0, tip := 6, feeCap := 22, gas := 21000, value := 0
    idHash := 101, dataLen := 0, dataNonZeroLen := 0, creation := false }

/-- The replacement candidate as a fresh `metaTx`. -/
def mtSampleN : MetaTx := newMetaTx txSampleN false 2

/-- A sample pool state holding `mtSampleA` consistently in the index,
the Pending sub-pool and `byHash`. -/
def sPoolSample : PoolState :=
  { all := [mtSampleA], pending := [mtSampleA], baseFee := [], queued := []
    byHash := [(100, mtSampleA)], deletedTxs := [], discardLog := [], isLocalLRU := [] }

/-- Witness for C2: replacing `txSampleA` by `txSampleN` (10 percent bump
satisfied) is accepted. -/
theorem claim_c2_replacement_witness :
    allGet sPoolSample.all mtSampleN.tx.senderID mtSampleN.tx.nonce = some mtSampleA ∧
    (addLocked 10 sPoolSample mtSampleN).1 = DiscardReason.NotSet :=
  ⟨by decide,
   ((claim_c2_replacement sPoolSample mtSampleN mtSampleA 10 (by decide) (by decide)
      (by decide) (by decide) (by decide)).2 (by decide)).1⟩

/-- Witness for C3: mining `txSampleA` empties the sample pool of its
sender's only transaction. -/
theorem claim_c3_remove_mined_witness :
    INV sPoolSample ∧
    (∀ m ∈ (removeMined sPoolSample [txSampleA]).all, ∀ t ∈ [txSampleA],
      ¬(m.tx.senderID = t.senderID ∧ m.tx.nonce ≤ t.nonce)) :=
  ⟨by constructor <;> simp [INV, sPoolSample, keyLt, mtSampleA, txSampleA] <;> decide,
   (claim_c3_remove_mined sPoolSample [txSampleA]
     (by constructor <;> simp [INV, sPoolSample, keyLt, mtSampleA, txSampleA] <;> decide)).1⟩

end TxPoolSpec

namespace TxPoolSpec

/-- Running accumulators of the `onSenderStateChange` walk: `noGapsNonce`
(starts at the state nonce), `cumulativeRequiredBalance` (uint256, starts
at 0), and the running minima `minFeeCap`, `minTip` (start at
`math.MaxUint64`). -/
structure WalkAcc where
  noGapsNonce : Nat
  cumulativeRequiredBalance : Nat
  minFeeCap : Nat
  minTip : Nat
  deriving DecidableEq, Repr

/-- The initial accumulators of `onSenderStateChange`. -/
def initWalkAcc (senderNonce : Nat) : WalkAcc :=
  { noGapsNonce := senderNonce, cumulativeRequiredBalance := 0
    minFeeCap := 2 ^ 64 - 1, minTip := 2 ^ 64 - 1 }

/-- What one iteration of the ascend callback did to the visited `metaTx`:
either it was removed from its sub-pool and queued for a `NonceTooLow`
discard, or it was kept with updated ephemeral fields. -/
inductive StepResult where
  | deleted
  | kept (mt : MetaTx)
  deriving DecidableEq, Repr

/-- One iteration of the `byNonce.ascend` callback in
`onSenderStateChange`: nonce-too-low deletion; running minima; nonce
distance; then marker bits 1-4, where a failing protocol-fee check zeroes
the whole marker and continues. Returns the new accumulators, what
happened to the element, and the callback's boolean (whether the walk
continues). -/
def onSenderStateChangeStep (senderNonce : Nat) (senderBalance : Nat)
    (protocolBaseFee blockGasLimit : Nat) (acc : WalkAcc) (mt : MetaTx) :
    WalkAcc × StepResult × Bool :=
  if mt.tx.nonce < senderNonce then (acc, .deleted, true)
  else
    let minFeeCap := min acc.minFeeCap mt.tx.feeCap
    let minTip := min acc.minTip mt.tx.tip
    let acc1 := { acc with minFeeCap := minFeeCap, minTip := minTip }
    let nonceDistance := if senderNonce < mt.tx.nonce then mt.tx.nonce - senderNonce else 0
    let needBalance := (mt.tx.gas * mt.tx.feeCap % U256 + mt.tx.value) % U256
    let sp1 := andNot mt.subPool EnoughFeeCapProtocol
    if protocolBaseFee ≤ minFeeCap then
      let sp2 := sp1 ||| EnoughFeeCapProtocol
      let sp3 := andNot sp2 NoNonceGaps
      let gapMatch := acc1.noGapsNonce = mt.tx.nonce
      let sp4 := if gapMatch then sp3 ||| NoNonceGaps else sp3
      let acc2 := if gapMatch then { acc1 with noGapsNonce := acc1.noGapsNonce + 1 } else acc1
      let sp5 := andNot sp4 EnoughBalance
      if senderNonce ≤ mt.tx.nonce then
        let cum := (acc2.cumulativeRequiredBalance + needBalance) % U256
        let acc3 := { acc2 with cumulativeRequiredBalance := cum }
        let enough := cum ≤ senderBalance
        let sp6 := if enough then sp5 ||| EnoughBalance else sp5
        let cbd := if enough then 2 ^ 64 - 1
                   else if cum < U64 ∧ senderBalance < U64 then cum - senderBalance
                   else 2 ^ 64 - 1
        let sp7 := andNot sp6 NotTooMuchGas
        let sp8 := if mt.tx.gas < blockGasLimit then sp7 ||| NotTooMuchGas else sp7
        (acc3, .kept { mt with minFeeCap := minFeeCap, minTip := minTip
                               nonceDistance := nonceDistance
                               cumulativeBalanceDistance := cbd, subPool := sp8 }, true)
      else
        let sp7 := andNot sp5 NotTooMuchGas
        let sp8 := if mt.tx.gas < blockGasLimit then sp7 ||| NotTooMuchGas else sp7
        (acc2, .kept { mt with minFeeCap := minFeeCap, minTip := minTip
                               nonceDistance := nonceDistance
                               cumulativeBalanceDistance := 2 ^ 64 - 1, subPool := sp8 }, true)
    else
      (acc1, .kept { mt with minFeeCap := minFeeCap, minTip := minTip
                             nonceDistance := nonceDistance, subPool := 0 }, true)

/-- The whole per-sender ascend of `onSenderStateChange`, collecting what
happened to each visited element; an iteration returning `false` would
stop the walk (the source's callback always returns `true`). -/
def onSenderStateChangeWalk (senderNonce senderBalance protocolBaseFee blockGasLimit : Nat) :
    List MetaTx → WalkAcc → WalkAcc × List (MetaTx × StepResult)
  | [], acc => (acc, [])
  | mt :: rest, acc =>
    let r := onSenderStateChangeStep senderNonce senderBalance protocolBaseFee blockGasLimit acc mt
    if r.2.2 then
      let w := onSenderStateChangeWalk senderNonce senderBalance protocolBaseFee blockGasLimit rest r.1
      (w.1, (mt, r.2.1) :: w.2)
    else (r.1, [(mt, r.2.1)])

end TxPoolSpec

namespace TxPoolSpec

theorem orm_and32 (x m : Nat) (h : m &&& 32 = 0) : (x ||| m) &&& 32 = x &&& 32 := by
  rw [Nat.and_comm, Nat.and_or_distrib_left, Nat.and_comm 32 m, h, Nat.or_zero, Nat.and_comm]

theorem or32_and32 (x : Nat) : (x ||| 32) &&& 32 = 32 := by
  apply Nat.eq_of_testBit_eq
  intro i
  rw [Nat.testBit_and, Nat.testBit_or]
  cases h : Nat.testBit 32 i <;> simp [h]

theorem andNot_and32 (x : Nat) (m : Nat) (h : (255 ^^^ m) &&& 32 = 32) :
    andNot x m &&& 32 = x &&& 32 := by
  rw [andNot, Nat.and_assoc, h]

theorem ite_or_and32 (c : Prop) [Decidable c] (x m : Nat) (hm : m &&& 32 = 0) :
    (if c then x ||| m else x) &&& 32 = x &&& 32 := by
  split
  · rw [orm_and32 x m hm]
  · rfl

/-- C4: in the `onSenderStateChange` walk the protocol base fee is the
constant 7 (whatever `calcProtocolBaseFee`'s argument); when the running
`minFeeCap` falls below it the whole marker is zeroed and the walk
continues — the element keeps its sub-pool, is not deleted, the gap and
balance accumulators are untouched; when it does not, the
`EnoughFeeCapProtocol` bit is set in the result. -/
theorem claim_c4_protocol_fee_gate (f senderNonce blockGasLimit : Nat)
    (senderBalance : Nat) (acc : WalkAcc) (mt : MetaTx)
    (hn : senderNonce ≤ mt.tx.nonce) :
    calcProtocolBaseFee f = 7 ∧
    (min acc.minFeeCap mt.tx.feeCap < 7 →
      onSenderStateChangeStep senderNonce senderBalance (calcProtocolBaseFee f)
          blockGasLimit acc mt =
        ({ acc with minFeeCap := min acc.minFeeCap mt.tx.feeCap
                    minTip := min acc.minTip mt.tx.tip },
         .kept { mt with minFeeCap := min acc.minFeeCap mt.tx.feeCap
                         minTip := min acc.minTip mt.tx.tip
                         nonceDistance := if senderNonce < mt.tx.nonce
                                          then mt.tx.nonce - senderNonce else 0
                         subPool := 0 },
         true)) ∧
    (7 ≤ min acc.minFeeCap mt.tx.feeCap →
      ∃ mt', (onSenderStateChangeStep senderNonce senderBalance (calcProtocolBaseFee f)
          blockGasLimit acc mt).2.1 = .kept mt' ∧
        mt'.subPool &&& EnoughFeeCapProtocol = EnoughFeeCapProtocol) := by
  refine ⟨rfl, ?_, ?_⟩
  · intro hlow
    unfold onSenderStateChangeStep
    rw [if_neg (by omega : ¬ mt.tx.nonce < senderNonce)]
    rw [if_neg (by exact not_le.mpr hlow :
      ¬ calcProtocolBaseFee f ≤ min acc.minFeeCap mt.tx.feeCap)]
  · intro hhigh
    unfold onSenderStateChangeStep
    rw [if_neg (by omega : ¬ mt.tx.nonce < senderNonce)]
    rw [if_pos (by exact hhigh :
      calcProtocolBaseFee f ≤ min acc.minFeeCap mt.tx.feeCap)]
    rw [if_pos hn]
    refine ⟨_, rfl, ?_⟩
    simp only [EnoughFeeCapProtocol, NoNonceGaps, EnoughBalance, NotTooMuchGas]
    rw [ite_or_and32 _ _ 4 (by decide), andNot_and32 _ 4 (by decide),
      ite_or_and32 _ _ 8 (by decide), andNot_and32 _ 8 (by decide),
      ite_or_and32 _ _ 16 (by decide), andNot_and32 _ 16 (by decide), or32_and32]

end TxPoolSpec

namespace TxPoolSpec

/-- Modelled from the spec: the `fixedgas` package is outside the provided
sources; §4.4 prescribes Istanbul-era pricing. Standard protocol values:
base transaction gas. -/
def TxGas : Nat := 21000
/-- Modelled from the spec: contract-creation base gas. -/
def TxGasContractCreation : Nat := 53000
/-- Modelled from the spec: non-zero data byte gas before EIP-2028. -/
def TxDataNonZeroGasFrontier : Nat := 68
/-- Modelled from the spec: non-zero data byte gas under EIP-2028. -/
def TxDataNonZeroGasEIP2028 : Nat := 16
/-- Modelled from the spec: zero data byte gas. -/
def TxDataZeroGas : Nat := 4

/-- `CalcIntrinsicGas` from pool.go (access list nil, as called by
`validateTx` with `isHomestead = isEIP2028 = true`). -/
def CalcIntrinsicGas (dataLen dataNonZeroLen : Nat)
    (isContractCreation isHomestead isEIP2028 : Bool) : Nat × DiscardReason :=
  let gas := if isContractCreation && isHomestead then TxGasContractCreation else TxGas
  if 0 < dataLen then
    let nz := dataNonZeroLen
    let nonZeroGas := if isEIP2028 then TxDataNonZeroGasEIP2028 else TxDataNonZeroGasFrontier
    if (U64 - 1 - gas) / nonZeroGas < nz then (0, .GasUintOverflow)
    else
      let gas1 := gas + nz * nonZeroGas
      let z := dataLen - nz
      if (U64 - 1 - gas1) / TxDataZeroGas < z then (0, .GasUintOverflow)
      else (gas1 + z * TxDataZeroGas, .Success)
  else (gas, .Success)

/-- `TxPool.validateTx` from pool.go: the ordered static checks.
`pooledCount` is `p.all.count(txn.senderID)`; the balance test uses
`gas * tip + value` in uint256 arithmetic. -/
def validateTx (minFeeCapCfg accountSlots pooledCount senderNonce : Nat)
    (senderBalance : Nat) (txn : TxSlot) (isLocal : Bool) : DiscardReason :=
  if ¬isLocal ∧ txn.feeCap < minFeeCapCfg then .UnderPriced
  else
    let g := CalcIntrinsicGas txn.dataLen txn.dataNonZeroLen txn.creation true true
    if g.2 ≠ .Success then g.2
    else if txn.gas < g.1 then .IntrinsicGas
    else if accountSlots < pooledCount then .Spammer
    else if txn.nonce < senderNonce then .NonceTooLow
    else if senderBalance < (txn.gas * txn.tip % U256 + txn.value) % U256 then .InsufficientFunds
    else .Success

/-- `TxPool.punishSpammer` from pool.go: drop half of the spammer's
pooled transactions, highest nonces first (`all.descend` collects
`count/2` elements), discarding each with `Spammer`. The per-sender count
is the number of that sender's index entries. -/
def punishSpammer (s : PoolState) (spammer : Nat) : PoolState :=
  let count := (senderTxs s.all spammer).length / 2
  if 0 < count then
    let txsToDelete := ((senderTxs s.all spammer).reverse).take count
    txsToDelete.foldl (fun st mt => discardLocked st mt .Spammer) s
  else s

/-- C5 counterexample: with `account_slots = 1` and one pooled
transaction, the claim's condition `pooled + 1 > account_slots` holds,
yet `validateTx` does not return `Spammer` (the source tests
`count > slots`, not `count + 1 > slots`). -/
theorem claim_c5_counterexample :
    1 + 1 > 1 ∧
    validateTx 1 1 1 0 1000000000 txSampleA false ≠ DiscardReason.Spammer := by
  decide

end TxPoolSpec

namespace TxPoolSpec

/-- C5 amended: `validateTx` returns `Spammer` exactly when the sender's
pooled count (not counting the candidate) exceeds `account_slots`, i.e.
`count > account_slots`, provided the earlier checks pass; on that
rejection `punishSpammer` discards exactly the `count / 2` highest-nonce
pooled transactions of the sender with reason `Spammer`, removing them
from the index. -/
theorem claim_c5_amended_spammer (minFeeCapCfg accountSlots pooledCount senderNonce : Nat)
    (senderBalance : Nat) (txn : TxSlot) (isLocal : Bool)
    (s : PoolState) (spammer : Nat)
    (hfee : ¬(¬isLocal ∧ txn.feeCap < minFeeCapCfg))
    (hintr : (CalcIntrinsicGas txn.dataLen txn.dataNonZeroLen txn.creation true true).2 =
      DiscardReason.Success)
    (hgas : ¬ txn.gas < (CalcIntrinsicGas txn.dataLen txn.dataNonZeroLen txn.creation true true).1)
    (hsorted : s.all.Pairwise (fun a b => keyLt a b = true)) :
    (validateTx minFeeCapCfg accountSlots pooledCount senderNonce senderBalance txn isLocal =
        DiscardReason.Spammer ↔ accountSlots < pooledCount) ∧
    (((senderTxs s.all spammer).reverse.take ((senderTxs s.all spammer).length / 2)).length =
      (senderTxs s.all spammer).length / 2) ∧
    (∀ e, e ∈ (punishSpammer s spammer).discardLog ↔ e ∈ s.discardLog ∨
      ∃ d ∈ (senderTxs s.all spammer).reverse.take ((senderTxs s.all spammer).length / 2),
        e = (d.tx.idHash, DiscardReason.Spammer)) ∧
    (∀ d ∈ (senderTxs s.all spammer).reverse.take ((senderTxs s.all spammer).length / 2),
      ∀ m ∈ senderTxs s.all spammer,
        m ∉ (senderTxs s.all spammer).reverse.take ((senderTxs s.all spammer).length / 2) →
        m.tx.nonce ≤ d.tx.nonce) ∧
    (∀ d ∈ (senderTxs s.all spammer).reverse.take ((senderTxs s.all spammer).length / 2),
      d ∉ (punishSpammer s spammer).all) := by
  have hlen : ((senderTxs s.all spammer).reverse.take
      ((senderTxs s.all spammer).length / 2)).length =
      (senderTxs s.all spammer).length / 2 := by
    rw [List.length_take, List.length_reverse]
    omega
  have hcross : ∀ d ∈ (senderTxs s.all spammer).reverse.take
        ((senderTxs s.all spammer).length / 2),
      ∀ m ∈ senderTxs s.all spammer,
        m ∉ (senderTxs s.all spammer).reverse.take ((senderTxs s.all spammer).length / 2) →
        m.tx.nonce ≤ d.tx.nonce := by
    intro d hd m hm hmn
    have hrev : ((senderTxs s.all spammer).reverse).Pairwise
        (fun a b => b.tx.nonce < a.tx.nonce) := by
      rw [List.pairwise_reverse]
      exact senderTxs_sorted spammer hsorted
    have hsplit := List.take_append_drop ((senderTxs s.all spammer).length / 2)
      ((senderTxs s.all spammer).reverse)
    rw [← hsplit] at hrev
    obtain ⟨-, -, hpair⟩ := List.pairwise_append.mp hrev
    have hmdrop : m ∈ (senderTxs s.all spammer).reverse.drop
        ((senderTxs s.all spammer).length / 2) := by
      have : m ∈ (senderTxs s.all spammer).reverse := List.mem_reverse.mpr hm
      rw [← hsplit] at this
      rcases List.mem_append.mp this with h | h
      · exact absurd h hmn
      · exact h
    exact le_of_lt (hpair d hd m hmdrop)
  refine ⟨?_, hlen, ?_, hcross, ?_⟩
  · unfold validateTx
    rw [if_neg hfee]
    simp only [hintr, ne_eq, not_true_eq_false, if_false, if_neg hgas]
    by_cases hsp : accountSlots < pooledCount
    · rw [if_pos hsp]
      simp [hsp]
    · rw [if_neg hsp]
      constructor
      · intro h
        split_ifs at h <;> simp_all
      · intro h
        exact absurd h hsp
  · intro e
    unfold punishSpammer
    by_cases hc : 0 < (senderTxs s.all spammer).length / 2
    · rw [if_pos hc]
      obtain ⟨-, -, -, -, -, dLog⟩ := foldl_discard_spec
        ((senderTxs s.all spammer).reverse.take ((senderTxs s.all spammer).length / 2))
        .Spammer s
      exact dLog e
    · rw [if_neg hc]
      have h0 : (senderTxs s.all spammer).length / 2 = 0 := by omega
      simp [h0]
  · intro d hd
    unfold punishSpammer
    have hc : 0 < (senderTxs s.all spammer).length / 2 := by
      by_contra hc0
      have h0 : (senderTxs s.all spammer).length / 2 = 0 := by omega
      rw [h0, List.take_zero] at hd
      simp at hd
    rw [if_pos hc]
    obtain ⟨-, -, -, dAll, -, -⟩ := foldl_discard_spec
      ((senderTxs s.all spammer).reverse.take ((senderTxs s.all spammer).length / 2))
      .Spammer s
    intro hmem
    have := ((dAll d).mp hmem).2 d hd
    rw [sameKey] at this
    simp at this

end TxPoolSpec

namespace TxPoolSpec

/-- Witness for the amended C5 at concrete values: two pooled
transactions against one account slot triggers `Spammer`. -/
theorem claim_c5_amended_spammer_witness :
    ¬(¬(false : Bool) ∧ txSampleB.feeCap < 1) ∧
    (validateTx 1 1 2 0 1000000000 txSampleB false = DiscardReason.Spammer ↔ 1 < 2) :=
  ⟨by decide,
   (claim_c5_amended_spammer 1 1 2 0 1000000000 txSampleB false sPoolSample 1
     (by decide) (by decide) (by decide) (by simp [sPoolSample])).1⟩

end TxPoolSpec

namespace TxPoolSpec

/-- `validateTxs` from pool.go: one pre-sized reason slot per input
(`NotSet` when validation succeeded), and the compacted list of passing
transactions. Sender state is read through the supplied lookups. -/
def validateTxsModel (minFeeCapCfg accountSlots : Nat)
    (pooledCount senderNonce : Nat → Nat) (senderBalance : Nat → Nat)
    (txs : List (TxSlot × Bool)) : List DiscardReason × List (TxSlot × Bool) :=
  let reasons := txs.map (fun t =>
    let r := validateTx minFeeCapCfg accountSlots (pooledCount t.1.senderID)
      (senderNonce t.1.senderID) (senderBalance t.1.senderID) t.1 t.2
    if r = .Success then .NotSet else r)
  (reasons, (reasons.zip txs).filterMap (fun p => if p.1 = .NotSet then some p.2 else none))

/-- The discard-reason LRU lookup (`discardReasonsLRU.Get`), reading the
newest entry for a hash from the log. -/
def lruGet (log : List (Nat × DiscardReason)) (h : Nat) : Option DiscardReason :=
  (log.find? (fun p => p.1 == h)).map (·.2)

/-- The per-transaction loop of `addTxs`: an input whose hash is already
in `byHash` gets `DuplicateHash`; otherwise `addLocked` runs and its
reason (or `NotSet` on acceptance) fills that slot. Returns the reasons
indexed by the (already compacted) input list, and the resulting state. -/
def addTxsReasons (blockNum priceBump : Nat) (s : PoolState)
    (newTxs : List (TxSlot × Bool)) : List DiscardReason × PoolState :=
  newTxs.foldl (fun acc t =>
    if (acc.2.byHash.find? (fun p => p.1 == t.1.idHash)).isSome then
      (acc.1 ++ [.DuplicateHash], acc.2)
    else
      let r := addLocked priceBump acc.2 (newMetaTx t.1 t.2 blockNum)
      (acc.1 ++ [r.1], r.2)) ([], s)

/-- The merge loop of `AddLocalTxs`: `for i, reason := range addReasons {
if reason != NotSet { reasons[i] = reason } }` — `addReasons` is indexed
by the compacted good-transactions list, yet written into `reasons` at
the same numeric index. -/
def mergeAddReasons : List DiscardReason → List DiscardReason → List DiscardReason
  | [], _ => []
  | rs, [] => rs
  | r :: rs, a :: as_ => (if a ≠ .NotSet then a else r) :: mergeAddReasons rs as_

/-- `fillDiscardReasons` from pool.go: walks `reasons` by index and, for
every still-`NotSet` slot, reads `newTxs.txs[i]` at the same index — an
index past the end of `newTxs` is a Go runtime panic, modelled as
`none`. -/
def fillDiscardReasons : List DiscardReason → List TxSlot →
    (Nat → Option DiscardReason) → Option (List DiscardReason)
  | [], _, _ => some []
  | r :: rs, [], lru =>
    if r = .NotSet then none
    else
      match fillDiscardReasons rs [] lru with
      | none => none
      | some rest => some (r :: rest)
  | r :: rs, t :: ts, lru =>
    if r = .NotSet then
      let r' := match lru t.idHash with
                | some reason => reason
                | none => .Success
      match fillDiscardReasons rs ts lru with
      | none => none
      | some rest => some (r' :: rest)
    else
      match fillDiscardReasons rs ts lru with
      | none => none
      | some rest => some (r :: rest)

/-- The reason-reporting pipeline of `AddLocalTxs`: validate, add the good
transactions, merge the add reasons back by index, then
`fillDiscardReasons(reasons, goodTxs, lru)`; `none` models the runtime
panic. -/
def addLocalTxsModel (minFeeCapCfg accountSlots priceBump blockNum : Nat)
    (pooledCount senderNonce : Nat → Nat) (senderBalance : Nat → Nat)
    (s : PoolState) (newTransactions : List (TxSlot × Bool)) : Option (List DiscardReason) :=
  let v := validateTxsModel minFeeCapCfg accountSlots pooledCount senderNonce
    senderBalance newTransactions
  let a := addTxsReasons blockNum priceBump s v.2
  let reasons2 := mergeAddReasons v.1 a.1
  fillDiscardReasons reasons2 (v.2.map (·.1)) (lruGet a.2.discardLog)

/-- An input failing validation: non-local with `feeCap` below the
configured minimum. -/
def txSampleBad : TxSlot :=
  { senderID := 3, nonce := 0, tip := 1, feeCap := 0, gas := 21000, value := 0
    idHash := 300, dataLen := 0, dataNonZeroLen := 0, creation := false }

/-- An empty pool state. -/
def sPoolEmpty : PoolState :=
  { all := [], pending := [], baseFee := [], queued := []
    byHash := [], deletedTxs := [], discardLog := [], isLocalLRU := [] }

end TxPoolSpec

namespace TxPoolSpec

/-- C9: on the batch [failing input, passing input] the arguments
`AddLocalTxs` hands to `fillDiscardReasons` are a two-slot reasons array
(`UnderPriced`, `NotSet`) and a one-element compacted transaction list;
the walk reads `newTxs.txs[1]`, one past the end — the claimed in-bounds
property fails (a Go runtime panic, `none` here). -/
theorem claim_c9_fill_out_of_range :
    (validateTxsModel 1 16 (fun _ => 0) (fun _ => 0) (fun _ => 1000000000)
      [(txSampleBad, false), (txSampleA, false)]).1 =
      [DiscardReason.UnderPriced, DiscardReason.NotSet] ∧
    ((validateTxsModel 1 16 (fun _ => 0) (fun _ => 0) (fun _ => 1000000000)
      [(txSampleBad, false), (txSampleA, false)]).2.map (·.1)).length = 1 ∧
    fillDiscardReasons [DiscardReason.UnderPriced, DiscardReason.NotSet]
      ((validateTxsModel 1 16 (fun _ => 0) (fun _ => 0) (fun _ => 1000000000)
        [(txSampleBad, false), (txSampleA, false)]).2.map (·.1))
      (lruGet []) = none := by
  refine ⟨rfl, rfl, rfl⟩

/-- C6: on the same batch the whole `AddLocalTxs` reason pipeline aborts
(`none`) instead of returning one reason per input; and the merge loop
writes a good transaction's add-reason at the wrong input index —
`DuplicateHash` produced for input 1 lands on input 0, overwriting its
`UnderPriced`. -/
theorem claim_c6_reason_misalignment :
    addLocalTxsModel 1 16 10 0 (fun _ => 0) (fun _ => 0) (fun _ => 1000000000)
      sPoolEmpty [(txSampleBad, false), (txSampleA, false)] = none ∧
    mergeAddReasons [DiscardReason.UnderPriced, DiscardReason.NotSet]
      [DiscardReason.DuplicateHash] =
      [DiscardReason.DuplicateHash, DiscardReason.NotSet] := by
  refine ⟨rfl, rfl⟩

end TxPoolSpec

namespace TxPoolSpec

/-- The `deletedTxs` loop of `flushLocked`: for each entry, a DB operation
(`tx.Has` / `tx.Delete`) runs and then the slot is overwritten with `nil`
(`p.deletedTxs[i] = nil // for gc`). `failAt` injects a DB error at the
given operation index; the loop then returns with the mutations performed
so far. Returns the slots, the next operation index, and success. -/
def flushDeletedLoop (failAt : Option Nat) :
    List (Option MetaTx) → Nat → List (Option MetaTx) × Nat × Bool
  | [], opIdx => ([], opIdx, true)
  | e :: rest, opIdx =>
    if failAt = some opIdx then (e :: rest, opIdx, false)
    else
      let r := flushDeletedLoop failAt rest (opIdx + 1)
      (none :: r.1, r.2.1, r.2.2)

/-- `flushLocked` from pool.go, restricted to its effect on `deletedTxs`:
the deleted-transactions loop nils the slots one by one; `laterOps` DB
writes follow (`ClearBucket`, the `RecentLocalTransaction` appends, the
`PoolTransaction` puts, the `PoolInfo` puts), any of which may also fail;
only after all of them does `p.deletedTxs = p.deletedTxs[:0]` run.
Returns the final `deletedTxs` and whether the write transaction
committed. -/
def flushLockedModel (failAt : Option Nat) (laterOps : Nat)
    (deletedTxs : List (Option MetaTx)) : List (Option MetaTx) × Bool :=
  let d := flushDeletedLoop failAt deletedTxs 0
  if d.2.2 = false then (d.1, false)
  else
    match failAt with
    | some k => if k < d.2.1 + laterOps then (d.1, false) else ([], true)
    | none => ([], true)

/-- C8: the claim fails on the code. With two deleted transactions, a DB
error at the second entry's operation leaves `deletedTxs = [nil, m2]`: the
aborted write transaction has already lost m1 from the in-memory replay
list (Go would nil-dereference on retry). An error after the loop leaves
`[nil, nil]`. Only the successful path truncates the list — and it is the
only path on which the list may cease to hold the deleted transactions. -/
theorem claim_c8_flush_side_effect :
    flushLockedModel (some 1) 4 [some mtSampleA, some mtSampleB] =
      ([none, some mtSampleB], false) ∧
    flushLockedModel (some 2) 4 [some mtSampleA, some mtSampleB] =
      ([none, none], false) ∧
    flushLockedModel none 4 [some mtSampleA, some mtSampleB] = ([], true) := by
  refine ⟨rfl, rfl, rfl⟩

end TxPoolSpec

namespace TxPoolSpec

/-- Witness for C4 at a concrete walk state: the sample transaction's fee
cap (20) clears the constant protocol base fee, so the step keeps it with
the `EnoughFeeCapProtocol` bit set. -/
theorem claim_c4_protocol_fee_gate_witness :
    0 ≤ mtSampleA.tx.nonce ∧
    (∃ mt', (onSenderStateChangeStep 0 1000000000 (calcProtocolBaseFee 10)
        30000000 (initWalkAcc 0) mtSampleA).2.1 = .kept mt' ∧
      mt'.subPool &&& EnoughFeeCapProtocol = EnoughFeeCapProtocol) :=
  ⟨by decide,
   (claim_c4_protocol_fee_gate 10 0 30000000 1000000000 (initWalkAcc 0) mtSampleA
     (by decide)).2.2 (by decide)⟩

end TxPoolSpec
